import Mathlib

set_option linter.unusedVariables false

/-!
Shallow embedding of the attack-propagation simulation engine of
`simulation_engine.py` (class `CyberAttackSimulator`).

Modelling conventions:
* Python floats are modelled as exact rationals (`ℚ`); the numeric literals
  of the source (`0.95`, `0.2`, …) appear verbatim as rational literals.
* Python dicts whose insertion order matters (`networkx` node/adjacency
  dicts, `device_states`) are modelled as association lists in insertion
  order with unique keys.
* The global random generator is modelled as an explicit stream
  `rng : ℕ → ℚ` together with the index of the next draw; each call to
  `random.random()` or `random.uniform` consumes exactly one draw.
* `time.time()` is modelled as an explicit parameter `now` of
  `simulate_attack` (the wall-clock instant of the call).
* Methods that mutate `self` and may raise are modelled in state-passing
  style with the result type `Res`: an error carries the engine state at
  the moment the exception is raised, exactly as a Python exception leaves
  the partially mutated object behind.
-/

/-- Python exceptions raised by the engine: `KeyError` carries the missing
key.  `fuelOut` is a sentinel of the fuelled propagation loop that is proved
unreachable (`propagation_loop_total`). -/
inductive PyErr where
  | keyError : String → PyErr
  | fuelOut : PyErr
  deriving Repr, DecidableEq

/-- Node attribute record of the `networkx` graph.  A node created
implicitly by `add_edge` has no `risk_score` attribute, hence the `Option`;
the remaining attributes are always written before being read, so missing
values are represented by their written defaults. -/
structure NodeData where
  risk_score : Option ℚ
  compromised : Bool
  compromise_time : Option ℚ
  attack_vector : Option String
  deriving Repr, DecidableEq

/-- Directed graph with node attributes and weighted edges, in insertion
order (matching `nx.DiGraph` iteration order). -/
structure DiGraph where
  nodes : List (String × NodeData)
  edges : List (String × String × ℚ)
  deriving Repr, DecidableEq

/-- Dependency record of the network configuration; `frm` and `tgt`
render the Python keys `"from"` and `"to"` (both Lean keywords) and
`weight` is optional (`dependency.get("weight", 1.0)`). -/
structure Dependency where
  frm : String
  tgt : String
  weight : Option ℚ
  deriving Repr, DecidableEq

/-- Network configuration: device name → risk score plus dependency list
(the input contract of `CyberAttackSimulator.__init__`). -/
structure NetworkConfig where
  devices : List (String × ℚ)
  dependencies : List Dependency
  deriving Repr, DecidableEq

/-- Attack scenario: entry-point device names plus description. -/
structure Scenario where
  attack_entry : List String
  description : String
  deriving Repr, DecidableEq

/-- Per-device simulation state (`_initialize_device_states`). -/
structure DeviceState where
  compromised : Bool
  compromise_probability : ℚ
  compromise_time : Option ℚ
  attack_source : Option String
  security_level : ℚ
  deriving Repr, DecidableEq

/-- One entry of `attack_timeline` (appended by `_compromise_device`). -/
structure TimelineEntry where
  device : String
  time : ℚ
  risk : ℚ
  attack_vector : String
  deriving Repr, DecidableEq

/-- One recorded propagation step of `simulate_attack`. -/
structure PropStep where
  source : String
  target : String
  time : ℚ
  success_probability : ℚ
  method : String
  deriving Repr, DecidableEq

/-- Association-list lookup (Python dict read; first match, and keys are
unique in every list we build). -/
def lookupA {α : Type} : List (String × α) → String → Option α
  | [], _ => none
  | (k, v) :: rest, key => if k = key then some v else lookupA rest key

/-- Association-list in-place update of the first match (Python dict write
to an existing key). -/
def updA {α : Type} : List (String × α) → String → (α → α) → List (String × α)
  | [], _, _ => []
  | (k, v) :: rest, key, f =>
    if k = key then (k, f v) :: rest else (k, v) :: updA rest key f

/-- Node lookup in the graph. -/
def getNode (g : DiGraph) (name : String) : Option NodeData :=
  lookupA g.nodes name

/-- Edge-weight lookup (`self.graph.edges[u, v]["weight"]`). -/
def lookupEdge : List (String × String × ℚ) → String → String → Option ℚ
  | [], _, _ => none
  | (a, b, w) :: es, u, v =>
    if a = u ∧ b = v then some w else lookupEdge es u v

/-- Successor list of a node, in edge-insertion order
(`self.graph.successors`). -/
def successors (g : DiGraph) (u : String) : List String :=
  g.edges.filterMap (fun e => if e.1 = u then some e.2.1 else none)

/-- Predecessor list of a node (`self.graph.predecessors`). -/
def predecessors (g : DiGraph) (v : String) : List String :=
  g.edges.filterMap (fun e => if e.2.1 = v then some e.1 else none)

/-- Names of the graph nodes in insertion order. -/
def nodeNames (g : DiGraph) : List String :=
  g.nodes.map Prod.fst

/-- The `nx.add_node` call of `_build_network_graph`: create or update the
node, setting all four attributes. -/
def add_node (g : DiGraph) (name : String) (risk : ℚ) : DiGraph :=
  if (getNode g name).isSome then
    { g with nodes := updA g.nodes name (fun _ => ⟨some risk, false, none, none⟩) }
  else
    { g with nodes := g.nodes ++ [(name, ⟨some risk, false, none, none⟩)] }

/-- Endpoint auto-creation performed by `nx.add_edge`: a missing endpoint
is added as a node carrying no attributes (in particular no
`risk_score`). -/
def ensure_node (g : DiGraph) (name : String) : DiGraph :=
  if (getNode g name).isSome then g
  else { g with nodes := g.nodes ++ [(name, ⟨none, false, none, none⟩)] }

/-- Weight overwrite of an existing edge. -/
def updEdge : List (String × String × ℚ) → String → String → ℚ →
    List (String × String × ℚ)
  | [], _, _, _ => []
  | (a, b, w) :: es, u, v, w2 =>
    if a = u ∧ b = v then (a, b, w2) :: es else (a, b, w) :: updEdge es u v w2

/-- The `nx.add_edge` call of `_build_network_graph`: auto-create missing
endpoints, then set the edge weight (overwriting a duplicate edge). -/
def add_edge (g : DiGraph) (u v : String) (w : ℚ) : DiGraph :=
  let g1 := ensure_node (ensure_node g u) v
  if (lookupEdge g1.edges u v).isSome then
    { g1 with edges := updEdge g1.edges u v w }
  else
    { g1 with edges := g1.edges ++ [(u, v, w)] }

/-- The method `_build_network_graph`: add every device node with its risk
score, then every dependency edge with its weight (default `1.0`).  There
is no validation anywhere: unknown endpoints are silently auto-created and
out-of-range risk scores are stored unchanged. -/
def build_network_graph (cfg : NetworkConfig) : DiGraph :=
  let g1 := cfg.devices.foldl (fun g p => add_node g p.1 p.2) ⟨[], []⟩
  cfg.dependencies.foldl
    (fun g d => add_edge g d.frm d.tgt (d.weight.getD 1)) g1

/-- The method `_initialize_device_states`: one state record per graph
node; reading the `risk_score` attribute of a node that lacks it raises
`KeyError("risk_score")` (which is what happens for nodes auto-created by
a dangling dependency). -/
def initialize_device_states :
    List (String × NodeData) → Except PyErr (List (String × DeviceState))
  | [] => .ok []
  | (name, nd) :: rest =>
    match nd.risk_score with
    | none => .error (.keyError "risk_score")
    | some r =>
      match initialize_device_states rest with
      | .error e => .error e
      | .ok states => .ok ((name, ⟨false, 0, none, none, 1 - r⟩) :: states)

/-- Engine state: the fields of `CyberAttackSimulator` mutated during a
run. -/
structure Engine where
  graph : DiGraph
  device_states : List (String × DeviceState)
  attack_timeline : List TimelineEntry
  deriving Repr, DecidableEq

/-- Outcome of a state-mutating engine method: `ok` carries the new engine
state and the return value, `err` carries the engine state at the moment
the Python exception is raised (the partially mutated object). -/
inductive Res (α : Type) where
  | ok : Engine → α → Res α
  | err : Engine → PyErr → Res α
  deriving Repr, DecidableEq

/-- True when the call completed without an exception. -/
def Res.isOk {α : Type} : Res α → Bool
  | .ok _ _ => true
  | .err _ _ => false

/-- The returned value, with a default for the error case. -/
def Res.resultD {α : Type} : Res α → α → α
  | .ok _ a, _ => a
  | .err _ _, d => d

/-- The engine state carried by the outcome. -/
def Res.state {α : Type} : Res α → Engine
  | .ok e _ => e
  | .err e _ => e

/-- Graph-side node reset/compromise writes never fail in the source (the
attributes are plain dict assignments), so they are total. -/
def updNode (g : DiGraph) (name : String) (f : NodeData → NodeData) :
    DiGraph :=
  { g with nodes := updA g.nodes name f }

/-- The method `_compromise_device`.  Python evaluation order: the
`device_states[device]` read raises `KeyError(device)` before any write;
then the three state fields are set, then the three graph-node attributes
(`self.graph.nodes[device]` raises if the device is not a node), then the
timeline entry is appended, reading the node's `risk_score` (raising
`KeyError("risk_score")` on an attribute-less node). -/
def compromise_device (e : Engine) (device : String) (time : ℚ)
    (attack_vector : String) : Res Unit :=
  match lookupA e.device_states device with
  | none => .err e (.keyError device)
  | some _ =>
    let ds := updA e.device_states device
      (fun st => { st with
        compromised := true
        compromise_time := some time
        attack_source := some attack_vector })
    match getNode e.graph device with
    | none => .err { e with device_states := ds } (.keyError device)
    | some nd =>
      let g := updNode e.graph device
        (fun n => { n with
          compromised := true
          compromise_time := some time
          attack_vector := some attack_vector })
      match nd.risk_score with
      | none => .err { e with device_states := ds, graph := g }
          (.keyError "risk_score")
      | some r =>
        .ok { e with
          device_states := ds
          graph := g
          attack_timeline :=
            e.attack_timeline ++ [⟨device, time, r, attack_vector⟩] } ()

/-- Per-node attribute reset of `_reset_simulation`. -/
def resetNodes (g : DiGraph) : DiGraph :=
  { g with nodes := g.nodes.map (fun p =>
      (p.1, { p.2 with
        compromised := false
        compromise_time := none
        attack_vector := none })) }

/-- The method `_reset_simulation`: rebuild `device_states` from the graph
(the exception of a failing rebuild is raised before the assignment, so on
error the engine is unchanged), empty the timeline, clear the graph-node
compromise attributes. -/
def reset_simulation (e : Engine) : Res Unit :=
  match initialize_device_states e.graph.nodes with
  | .error er => .err e er
  | .ok ds =>
    .ok { e with
      device_states := ds
      attack_timeline := []
      graph := resetNodes e.graph } ()

/-- Count of a target's predecessors whose device state is compromised
(the `compromised_neighbors` sum of `_calculate_attack_probability`); a
predecessor missing from `device_states` raises `KeyError`. -/
def count_compromised_preds (e : Engine) :
    List String → Except PyErr ℕ
  | [] => .ok 0
  | p :: ps =>
    match lookupA e.device_states p with
    | none => .error (.keyError p)
    | some st =>
      match count_compromised_preds e ps with
      | .error er => .error er
      | .ok n => .ok (if st.compromised then n + 1 else n)

/-- The method `_calculate_attack_probability` for the edge
`source → target` at `current_time`. -/
def calculate_attack_probability (e : Engine) (source target : String)
    (current_time : ℚ) : Except PyErr ℚ :=
  match (getNode e.graph target).bind NodeData.risk_score with
  | none => .error (.keyError "risk_score")
  | some base_prob =>
    match lookupEdge e.graph.edges source target with
    | none => .error (.keyError target)
    | some edge_weight =>
      let weight_factor := min (edge_weight / 2) 1
      let time_decay := max 0.1 (1 - current_time / 100)
      match count_compromised_preds e (predecessors e.graph target) with
      | .error er => .error er
      | .ok compromised_neighbors =>
        let network_effect : ℚ := 1 + compromised_neighbors * 0.2
        let final_probability :=
          base_prob * weight_factor * time_decay * network_effect
        .ok (min final_probability 0.95)

/-- The method `_calculate_propagation_delay`.  The source draws
`random.uniform(-0.3, 0.3)` here; the draw is passed in explicitly as
`u ∈ [0,1)` with `uniform(-0.3, 0.3) = -0.3 + 0.6 * u` (the CPython
definition `a + (b-a)*random()`). -/
def calculate_propagation_delay (e : Engine) (source target : String)
    (edge_weight : ℚ) (u : ℚ) : Except PyErr ℚ :=
  let base_delay := 5 / max edge_weight 0.1
  let variation := -0.3 + (0.3 - -0.3) * u
  let delay := base_delay * (1 + variation)
  match lookupA e.device_states target with
  | none => .error (.keyError target)
  | some st => .ok (max (delay * (1 + st.security_level)) 1)

/-- The neighbor loop of `simulate_attack` (lines 93–128): for each
successor of `current_device` that is not yet compromised, evaluate the
attack probability, draw `random.random()`, and on success look up the
edge weight, compute the delay (one further draw), compromise the target,
append it to the work queue and record the propagation step.  `rix` is the
index of the next unconsumed draw of the random stream. -/
def attempt_neighbors (rng : ℕ → ℚ) (current_device : String)
    (current_time : ℚ) (e : Engine) :
    List String → List (String × ℚ) → List PropStep → ℕ →
    Res (List (String × ℚ) × List PropStep × ℕ)
  | [], queue, steps, rix => .ok e (queue, steps, rix)
  | neighbor :: rest, queue, steps, rix =>
    match lookupA e.device_states neighbor with
    | none => .err e (.keyError neighbor)
    | some st =>
      if st.compromised then
        attempt_neighbors rng current_device current_time e rest queue steps rix
      else
        match calculate_attack_probability e current_device neighbor current_time with
        | .error er => .err e er
        | .ok success_prob =>
          if rng rix < success_prob then
            match lookupEdge e.graph.edges current_device neighbor with
            | none => .err e (.keyError neighbor)
            | some edge_weight =>
              match calculate_propagation_delay e current_device neighbor
                  edge_weight (rng (rix + 1)) with
              | .error er => .err e er
              | .ok propagation_delay =>
                let new_time := current_time + propagation_delay
                match compromise_device e neighbor new_time
                    ("Lateral movement from " ++ current_device) with
                | .err e2 er => .err e2 er
                | .ok e2 _ =>
                  attempt_neighbors rng current_device current_time e2 rest
                    (queue ++ [(neighbor, new_time)])
                    (steps ++ [⟨current_device, neighbor, new_time,
                      success_prob, "Lateral Movement"⟩])
                    (rix + 2)
          else
            attempt_neighbors rng current_device current_time e rest queue
              steps (rix + 1)

/-- The `while attack_queue` loop of `simulate_attack`, with an explicit
fuel parameter: the source loop has no bound, and
`propagation_loop_some` below proves that the fuel passed by
`simulate_attack` can never run out, so the `none` case is unreachable and
the fuelled function computes exactly the source loop. -/
def propagation_loop (rng : ℕ → ℚ) :
    ℕ → Engine → List (String × ℚ) → List PropStep → ℕ →
    Res (Option (List PropStep))
  | _, e, [], steps, _ => .ok e (some steps)
  | 0, e, _ :: _, _, _ => .ok e none
  | fuel + 1, e, (current_device, current_time) :: rest, steps, rix =>
    let neighbors := successors e.graph current_device
    match attempt_neighbors rng current_device current_time e neighbors
        rest steps rix with
    | .err e2 er => .err e2 er
    | .ok e2 (queue, steps2, rix2) =>
      propagation_loop rng fuel e2 queue steps2 rix2

/-- The entry-point loop of `simulate_attack` (lines 78–81): compromise
every entry point at simulation time `0.0` with label
`"Initial Attack"`. -/
def compromise_entries (e : Engine) : List String → Res Unit
  | [] => .ok e ()
  | d :: ds =>
    match compromise_device e d 0 "Initial Attack" with
    | .err e2 er => .err e2 er
    | .ok e2 _ => compromise_entries e2 ds

/-- Arithmetic mean (`np.mean`); on the empty list the model returns `0`
(rationals have no NaN), which is only reachable for a network with no
devices. -/
def listMean (l : List ℚ) : ℚ := l.sum / l.length

/-- Risk score of a device as read by `_calculate_results`
(`self.graph.nodes[device]["risk_score"]`).  For every engine whose state
table was built by `_initialize_device_states` the lookup succeeds; the
model totalises it with default `0`. -/
def riskOf (g : DiGraph) (d : String) : ℚ :=
  ((getNode g d).bind NodeData.risk_score).getD 0

/-- Device state as read by `_calculate_results`
(`self.device_states[device]`), totalised with the freshly initialised
state as default (the lookup succeeds on every reachable engine). -/
def stateOf (e : Engine) (d : String) : DeviceState :=
  (lookupA e.device_states d).getD ⟨false, 0, none, none, 0⟩

/-- Stable insertion used to model `sorted(timeline, key=lambda x: x["time"])`:
an element is inserted before the first strictly later entry, hence after
every equal-time entry, which is exactly the stable (insertion-order
preserving) behaviour of Python's `sorted`. -/
def insert_by_time (x : TimelineEntry) : List TimelineEntry → List TimelineEntry
  | [] => [x]
  | y :: ys => if y.time < x.time then y :: insert_by_time x ys else x :: y :: ys

/-- Stable sort of the attack timeline by compromise time
(`sorted(self.attack_timeline, key=lambda x: x["time"])`). -/
def sort_by_time : List TimelineEntry → List TimelineEntry
  | [] => []
  | x :: xs => insert_by_time x (sort_by_time xs)

/-- The immutable results record returned by `simulate_attack`. -/
structure SimResult where
  attack_scenario : Scenario
  total_devices : ℕ
  affected_devices : ℕ
  propagation_rate : ℚ
  overall_risk_score : ℚ
  initial_risk_score : ℚ
  risk_increase : ℚ
  attack_duration : ℚ
  attack_path : List TimelineEntry
  propagation_steps : List PropStep
  critical_devices_compromised : List String
  network_resilience_score : ℚ
  compromise_timeline : List TimelineEntry
  device_states : List (String × DeviceState)
  simulation_timestamp : ℚ
  deriving Repr, DecidableEq

/-- Default results record (used only to totalise `Res.resultD`). -/
def default_result : SimResult :=
  ⟨⟨[], ""⟩, 0, 0, 0, 0, 0, 0, 0, [], [], [], 0, [], [], 0⟩

/-- The method `_calculate_results`, field by field from lines 204–273;
`now` models the `time.time()` call of the `simulation_timestamp`
field. -/
def calculate_results (e : Engine) (attack_scenario : Scenario)
    (propagation_steps : List PropStep) (now : ℚ) : SimResult :=
  let total_devices := e.graph.nodes.length
  let affected_devices :=
    (e.device_states.filter (fun p => p.2.compromised)).length
  let initial_risk := listMean ((nodeNames e.graph).map (riskOf e.graph))
  let compromised_risk_scores :=
    ((nodeNames e.graph).filter (fun d => (stateOf e d).compromised)).map
      (riskOf e.graph)
  let post_attack_risk :=
    if compromised_risk_scores.isEmpty then initial_risk
    else listMean compromised_risk_scores *
      ((affected_devices : ℚ) / (total_devices : ℚ))
  let risk_increase :=
    if compromised_risk_scores.isEmpty then 0
    else post_attack_risk - initial_risk
  let attack_duration :=
    match e.attack_timeline with
    | [] => 0
    | t :: ts => ts.foldl (fun m te => max m te.time) t.time
  let attack_path := sort_by_time e.attack_timeline
  let propagation_rate :=
    if total_devices > 0 then (affected_devices : ℚ) / (total_devices : ℚ)
    else 0
  let critical_devices :=
    (e.device_states.filter (fun p =>
      p.2.compromised && decide ((0.7 : ℚ) < riskOf e.graph p.1))).map Prod.fst
  let uncompromised_critical :=
    (nodeNames e.graph).filter (fun d =>
      !(stateOf e d).compromised && decide ((0.7 : ℚ) < riskOf e.graph d))
  let all_critical :=
    (nodeNames e.graph).filter (fun d =>
      decide ((0.7 : ℚ) < riskOf e.graph d))
  let resilience_score :=
    (uncompromised_critical.length : ℚ) / ((max 1 all_critical.length : ℕ) : ℚ)
  { attack_scenario := attack_scenario
    total_devices := total_devices
    affected_devices := affected_devices
    propagation_rate := propagation_rate
    overall_risk_score := post_attack_risk
    initial_risk_score := initial_risk
    risk_increase := risk_increase
    attack_duration := attack_duration
    attack_path := attack_path
    propagation_steps := propagation_steps
    critical_devices_compromised := critical_devices
    network_resilience_score := resilience_score
    compromise_timeline := e.attack_timeline
    device_states := e.device_states
    simulation_timestamp := now }

/-- The method `simulate_attack`: reset, compromise the entry points at
time `0`, run the propagation loop on the FIFO queue of entry points, then
aggregate.  The fuel `|entry points| + |device states|` is proved
sufficient (`propagation_loop_some`), making the `fuelOut` branch
unreachable.  The optional logging callback of the source is purely
observational (it only receives messages) and is omitted. -/
def simulate_attack (e : Engine) (attack_scenario : Scenario)
    (rng : ℕ → ℚ) (now : ℚ) : Res SimResult :=
  match reset_simulation e with
  | .err e1 er => .err e1 er
  | .ok e1 _ =>
    match compromise_entries e1 attack_scenario.attack_entry with
    | .err e2 er => .err e2 er
    | .ok e2 _ =>
      let attack_queue := attack_scenario.attack_entry.map (fun d => (d, (0 : ℚ)))
      match propagation_loop rng
          (attack_scenario.attack_entry.length + e2.device_states.length)
          e2 attack_queue [] 0 with
      | .err e3 er => .err e3 er
      | .ok e3 none => .err e3 .fuelOut
      | .ok e3 (some propagation_steps) =>
        .ok e3 (calculate_results e3 attack_scenario propagation_steps now)

/-- Python `max(iterable, key=f)`: fold that keeps the current candidate
and replaces it only on a strictly greater key, hence returning the FIRST
element attaining the maximal key; `none` on an empty iterable (Python
raises `ValueError` there). -/
def pymax_by {α : Type} (f : α → ℚ) : List α → Option α
  | [] => none
  | x :: xs => some (xs.foldl (fun b a => if f b < f a then a else b) x)

/-- All simple paths from `u` to `t` whose intermediate nodes avoid
`visited`, with fuel bounding the recursion depth (any fuel above the node
count is exact, since simple paths repeat no node). -/
def simple_paths (g : DiGraph) : ℕ → String → String → List String →
    List (List String)
  | 0, _, _, _ => []
  | fuel + 1, u, t, visited =>
    if u = t then [[u]]
    else
      ((successors g u).filter (fun v => !(u :: visited).contains v)).flatMap
        (fun v => (simple_paths g fuel v t (u :: visited)).map (fun p => u :: p))

/-- All shortest (minimum-hop) paths from `s` to `t`: the minimum-length
members of the simple-path enumeration (every shortest path is simple). -/
def shortest_paths_all (g : DiGraph) (s t : String) : List (List String) :=
  let ps := simple_paths g (g.nodes.length + 1) s t []
  match (ps.map List.length).min? with
  | none => []
  | some m => ps.filter (fun p => p.length = m)

/-- Interior (non-endpoint) nodes of a path. -/
def path_interior (p : List String) : List String :=
  (p.drop 1).dropLast

/-- Fraction of shortest `s`–`t` paths passing through `v` (zero when `t`
is unreachable from `s`). -/
def pair_contribution (g : DiGraph) (v s t : String) : ℚ :=
  let sp := shortest_paths_all g s t
  if sp.length = 0 then 0
  else ((sp.filter (fun p => (path_interior p).contains v)).length : ℚ) /
    (sp.length : ℚ)

/-- Betweenness centrality of `v` as computed by
`nx.betweenness_centrality(self.graph)` (directed, unweighted,
`normalized=True`, `endpoints=False`): the sum over ordered pairs of
distinct nodes other than `v` of the shortest-path fractions, rescaled by
`1/((n-1)(n-2))` when `n > 2` (networkx skips the rescale for
`n ≤ 2`). -/
def betweenness_centrality (g : DiGraph) (v : String) : ℚ :=
  let names := nodeNames g
  let pairs := names.flatMap (fun s => names.map (fun t => (s, t)))
  let total := pairs.foldl
    (fun acc p =>
      if p.1 ≠ p.2 ∧ p.1 ≠ v ∧ p.2 ≠ v then
        acc + pair_contribution g v p.1 p.2
      else acc) 0
  let n := names.length
  if 2 < n then total / (((n - 1) * (n - 2) : ℕ) : ℚ) else total

/-- The `most_vulnerable` field of `get_vulnerability_analysis`:
`max(self.graph.nodes(data=True), key=lambda x: x[1]["risk_score"])[0]`.
The key read assumes every node carries a `risk_score` (true for every
graph built from a configuration's device dict); the model totalises the
read with default `0`. -/
def most_vulnerable (g : DiGraph) : Option String :=
  (pymax_by (fun p => p.2.risk_score.getD 0) g.nodes).map Prod.fst

/-- The `most_central` field of `get_vulnerability_analysis`:
`max(betweenness.items(), key=lambda x: x[1])[0]`, where the items of the
centrality dict are in graph node order. -/
def most_central (g : DiGraph) : Option String :=
  pymax_by (betweenness_centrality g) (nodeNames g)

/-- Ghost-instrumented variant of `propagation_loop` carrying the running
count of neighbour examinations (edge attempts); identical to the primary
loop otherwise (`propagation_loop_c_erase`). -/
def propagation_loop_c (rng : ℕ → ℚ) :
    ℕ → Engine → List (String × ℚ) → List PropStep → ℕ → ℕ →
    Res (Option (List PropStep × ℕ))
  | _, e, [], steps, _, attempts => .ok e (some (steps, attempts))
  | 0, e, _ :: _, _, _, _ => .ok e none
  | fuel + 1, e, (current_device, current_time) :: rest, steps, rix, attempts =>
    let neighbors := successors e.graph current_device
    match attempt_neighbors rng current_device current_time e neighbors
        rest steps rix with
    | .err e2 er => .err e2 er
    | .ok e2 (queue, steps2, rix2) =>
      propagation_loop_c rng fuel e2 queue steps2 rix2
        (attempts + neighbors.length)

/-- The `CyberAttackSimulator` constructor: build the graph, then the
device-state table (raising `KeyError("risk_score")` when a dependency
referenced an unknown device and thereby created an attribute-less
node). -/
def mk_simulator (cfg : NetworkConfig) : Except PyErr Engine :=
  let g := build_network_graph cfg
  match initialize_device_states g.nodes with
  | .error er => .error er
  | .ok ds => .ok ⟨g, ds, []⟩

/-- Count of not-yet-compromised device states (the termination measure of
the propagation loop). -/
def uncompromisedCount (e : Engine) : ℕ :=
  e.device_states.countP (fun p => !p.2.compromised)

/-- Well-formedness of an engine: the graphs reachable from a
configuration with unique device names and no dangling dependency satisfy
it after `_initialize_device_states` — unique node names, state table
keyed exactly by the node names, every node carrying a risk score, every
edge endpoint a node. -/
def EngineWF (e : Engine) : Prop :=
  (nodeNames e.graph).Nodup ∧
  e.device_states.map Prod.fst = nodeNames e.graph ∧
  (∀ p ∈ e.graph.nodes, p.2.risk_score.isSome = true) ∧
  (∀ ed ∈ e.graph.edges,
    ed.1 ∈ nodeNames e.graph ∧ ed.2.1 ∈ nodeNames e.graph)

/-- Validity of a scenario against an engine (§3/§6 of the specification:
a non-empty set of existing device names). -/
def ValidScenario (e : Engine) (sc : Scenario) : Prop :=
  sc.attack_entry ≠ [] ∧ sc.attack_entry.Nodup ∧
  ∀ d ∈ sc.attack_entry, d ∈ nodeNames e.graph

/-- Zero out the `simulation_timestamp` field, leaving every other field
of the outcome intact (used to state determinism up to the wall-clock
field). -/
def erase_timestamp : Res SimResult → Res SimResult
  | .ok e r => .ok e { r with simulation_timestamp := 0 }
  | .err e er => .err e er

/-- The two-device network of §8 of the specification:
`{A: 0.9, B: 0.1}` with the single dependency `A→B` of weight `2.0`. -/
def cfg_ab : NetworkConfig :=
  ⟨[("A", 0.9), ("B", 0.1)], [⟨"A", "B", some 2⟩]⟩

/-- The engine constructed from `cfg_ab` (construction succeeds). -/
def eng_ab : Engine :=
  (mk_simulator cfg_ab).toOption.getD ⟨⟨[], []⟩, [], []⟩

/-- Entry scenario `[A]` of the §8 test vectors. -/
def sc_a : Scenario := ⟨["A"], "test scenario"⟩

/-- A one-device network whose single risk score (0.5) is below the 0.7
criticality threshold. -/
def cfg_low : NetworkConfig := ⟨[("A", 0.5)], []⟩

/-- The engine constructed from `cfg_low`. -/
def eng_low : Engine :=
  (mk_simulator cfg_low).toOption.getD ⟨⟨[], []⟩, [], []⟩

/-- A configuration whose dependency references the unknown device
`"Ghost"`. -/
def cfg_dangling : NetworkConfig := ⟨[("A", 0.5)], [⟨"A", "Ghost", some 1⟩]⟩

/-- A configuration with a risk score outside `[0,1]`. -/
def cfg_out_of_range : NetworkConfig := ⟨[("A", 1.5)], []⟩

/-- A two-device network, inserted as `B` then `A`, with equal risk
scores and no edges: both devices tie for highest risk and for highest
betweenness, and the lexicographically smaller name is `"A"` while the
first-inserted is `"B"`. -/
def cfg_tie : NetworkConfig := ⟨[("B", 0.5), ("A", 0.5)], []⟩

/-- The graph of `cfg_tie`. -/
def g_tie : DiGraph := build_network_graph cfg_tie

/-!
Reference-semantics model for the result-immutability claim.

The pure model above cannot express Python aliasing: `_calculate_results`
stores `self.device_states.copy()` — a SHALLOW copy whose inner per-device
dicts are shared with the engine — so whether a returned result is later
mutated depends on reference structure.  The definitions below re-express
the same source methods over an explicit store: each per-device state dict
is a heap cell, `device_states` maps names to cell addresses, a shallow
copy copies the address map, `_compromise_device` writes through an
address, and `_reset_simulation` REBINDS `self.device_states` to freshly
allocated cells (`self.device_states = self._initialize_device_states()`),
which is what protects previously returned snapshots.
-/

/-- Heap of per-device state dicts: total cell valuation plus the next
fresh address. -/
structure Store where
  cells : ℕ → DeviceState
  next : ℕ

/-- In-place mutation of one cell (a write to an inner state dict). -/
def store_write (s : Store) (c : ℕ) (d : DeviceState) : Store :=
  ⟨fun i => if i = c then d else s.cells i, s.next⟩

/-- Allocation of a fresh inner state dict. -/
def store_alloc (s : Store) (d : DeviceState) : Store × ℕ :=
  (⟨fun i => if i = s.next then d else s.cells i, s.next + 1⟩, s.next)

/-- Engine object under reference semantics: `device_cells` is the
`device_states` dict mapping names to inner-dict addresses. -/
structure HEngine where
  graph : DiGraph
  device_cells : List (String × ℕ)
  attack_timeline : List TimelineEntry

/-- An engine object together with the heap it lives in. -/
structure World where
  eng : HEngine
  store : Store

/-- Outcome of a mutating method under reference semantics; as with `Res`,
an error carries the world at the moment the exception is raised. -/
inductive HRes (α : Type) where
  | ok : World → α → HRes α
  | err : World → PyErr → HRes α

/-- True when the call completed without an exception. -/
def HRes.isOk {α : Type} : HRes α → Bool
  | .ok _ _ => true
  | .err _ _ => false

/-- The world carried by the outcome. -/
def HRes.world {α : Type} : HRes α → World
  | .ok w _ => w
  | .err w _ => w

/-- The returned value, with a default for the error case. -/
def HRes.resultD {α : Type} : HRes α → α → α
  | .ok _ a, _ => a
  | .err _ _, d => d

/-- `_initialize_device_states` under reference semantics: one fresh cell
per node (the `KeyError` on an attribute-less node is raised before that
node's inner dict is allocated). -/
def h_init_states : List (String × NodeData) → Store →
    Except PyErr (List (String × ℕ)) × Store
  | [], s => (.ok [], s)
  | (name, nd) :: rest, s =>
    match nd.risk_score with
    | none => (.error (.keyError "risk_score"), s)
    | some r =>
      let p := store_alloc s ⟨false, 0, none, none, 1 - r⟩
      match h_init_states rest p.1 with
      | (.error e, s2) => (.error e, s2)
      | (.ok cells, s2) => (.ok ((name, p.2) :: cells), s2)

/-- `_reset_simulation` under reference semantics: rebind the state dict
to freshly allocated cells, empty the timeline, clear the graph-node
attributes.  The cells of the PREVIOUS state dict are never written
again. -/
def h_reset (w : World) : HRes Unit :=
  match h_init_states w.eng.graph.nodes w.store with
  | (.error er, s2) => .err ⟨w.eng, s2⟩ er
  | (.ok cells, s2) =>
    .ok ⟨⟨resetNodes w.eng.graph, cells, []⟩, s2⟩ ()

/-- The per-device state as read through the heap, totalised like
`stateOf`. -/
def h_stateOf (w : World) (d : String) : DeviceState :=
  match lookupA w.eng.device_cells d with
  | none => ⟨false, 0, none, none, 0⟩
  | some c => w.store.cells c

/-- `_compromise_device` under reference semantics: write through the
target's cell, update the graph node, append the timeline entry. -/
def h_compromise (w : World) (device : String) (time : ℚ)
    (attack_vector : String) : HRes Unit :=
  match lookupA w.eng.device_cells device with
  | none => .err w (.keyError device)
  | some c =>
    let st := w.store.cells c
    let s1 := store_write w.store c { st with
      compromised := true
      compromise_time := some time
      attack_source := some attack_vector }
    match getNode w.eng.graph device with
    | none => .err ⟨w.eng, s1⟩ (.keyError device)
    | some nd =>
      let g := updNode w.eng.graph device
        (fun n => { n with
          compromised := true
          compromise_time := some time
          attack_vector := some attack_vector })
      match nd.risk_score with
      | none => .err ⟨⟨g, w.eng.device_cells, w.eng.attack_timeline⟩, s1⟩
          (.keyError "risk_score")
      | some r =>
        .ok ⟨⟨g, w.eng.device_cells,
          w.eng.attack_timeline ++ [⟨device, time, r, attack_vector⟩]⟩, s1⟩ ()

/-- Entry-point loop under reference semantics. -/
def h_compromise_entries (w : World) : List String → HRes Unit
  | [] => .ok w ()
  | d :: ds =>
    match h_compromise w d 0 "Initial Attack" with
    | .err w2 er => .err w2 er
    | .ok w2 _ => h_compromise_entries w2 ds

/-- `compromised_neighbors` count under reference semantics. -/
def h_count_compromised_preds (w : World) :
    List String → Except PyErr ℕ
  | [] => .ok 0
  | p :: ps =>
    match lookupA w.eng.device_cells p with
    | none => .error (.keyError p)
    | some c =>
      match h_count_compromised_preds w ps with
      | .error er => .error er
      | .ok n => .ok (if (w.store.cells c).compromised then n + 1 else n)

/-- `_calculate_attack_probability` under reference semantics. -/
def h_attack_probability (w : World) (source target : String)
    (current_time : ℚ) : Except PyErr ℚ :=
  match (getNode w.eng.graph target).bind NodeData.risk_score with
  | none => .error (.keyError "risk_score")
  | some base_prob =>
    match lookupEdge w.eng.graph.edges source target with
    | none => .error (.keyError target)
    | some edge_weight =>
      let weight_factor := min (edge_weight / 2) 1
      let time_decay := max 0.1 (1 - current_time / 100)
      match h_count_compromised_preds w (predecessors w.eng.graph target) with
      | .error er => .error er
      | .ok compromised_neighbors =>
        let network_effect : ℚ := 1 + compromised_neighbors * 0.2
        .ok (min (base_prob * weight_factor * time_decay * network_effect) 0.95)

/-- `_calculate_propagation_delay` under reference semantics. -/
def h_propagation_delay (w : World) (source target : String)
    (edge_weight : ℚ) (u : ℚ) : Except PyErr ℚ :=
  let base_delay := 5 / max edge_weight 0.1
  let variation := -0.3 + (0.3 - -0.3) * u
  let delay := base_delay * (1 + variation)
  match lookupA w.eng.device_cells target with
  | none => .error (.keyError target)
  | some c => .ok (max (delay * (1 + (w.store.cells c).security_level)) 1)

/-- Neighbour loop under reference semantics. -/
def h_attempt_neighbors (rng : ℕ → ℚ) (current_device : String)
    (current_time : ℚ) (w : World) :
    List String → List (String × ℚ) → List PropStep → ℕ →
    HRes (List (String × ℚ) × List PropStep × ℕ)
  | [], queue, steps, rix => .ok w (queue, steps, rix)
  | neighbor :: rest, queue, steps, rix =>
    match lookupA w.eng.device_cells neighbor with
    | none => .err w (.keyError neighbor)
    | some c =>
      if (w.store.cells c).compromised then
        h_attempt_neighbors rng current_device current_time w rest queue steps rix
      else
        match h_attack_probability w current_device neighbor current_time with
        | .error er => .err w er
        | .ok success_prob =>
          if rng rix < success_prob then
            match lookupEdge w.eng.graph.edges current_device neighbor with
            | none => .err w (.keyError neighbor)
            | some edge_weight =>
              match h_propagation_delay w current_device neighbor edge_weight
                  (rng (rix + 1)) with
              | .error er => .err w er
              | .ok propagation_delay =>
                let new_time := current_time + propagation_delay
                match h_compromise w neighbor new_time
                    ("Lateral movement from " ++ current_device) with
                | .err w2 er => .err w2 er
                | .ok w2 _ =>
                  h_attempt_neighbors rng current_device current_time w2 rest
                    (queue ++ [(neighbor, new_time)])
                    (steps ++ [⟨current_device, neighbor, new_time,
                      success_prob, "Lateral Movement"⟩])
                    (rix + 2)
          else
            h_attempt_neighbors rng current_device current_time w rest queue
              steps (rix + 1)

/-- Propagation loop under reference semantics. -/
def h_propagation_loop (rng : ℕ → ℚ) :
    ℕ → World → List (String × ℚ) → List PropStep → ℕ →
    HRes (Option (List PropStep))
  | _, w, [], steps, _ => .ok w (some steps)
  | 0, w, _ :: _, _, _ => .ok w none
  | fuel + 1, w, (current_device, current_time) :: rest, steps, rix =>
    let neighbors := successors w.eng.graph current_device
    match h_attempt_neighbors rng current_device current_time w neighbors
        rest steps rix with
    | .err w2 er => .err w2 er
    | .ok w2 (queue, steps2, rix2) =>
      h_propagation_loop rng fuel w2 queue steps2 rix2

/-- Results record under reference semantics: `device_states` holds the
SHALLOW copy `self.device_states.copy()` — the address map, whose inner
cells remain shared with the engine. -/
structure HSimResult where
  attack_scenario : Scenario
  total_devices : ℕ
  affected_devices : ℕ
  propagation_rate : ℚ
  overall_risk_score : ℚ
  initial_risk_score : ℚ
  risk_increase : ℚ
  attack_duration : ℚ
  attack_path : List TimelineEntry
  propagation_steps : List PropStep
  critical_devices_compromised : List String
  network_resilience_score : ℚ
  compromise_timeline : List TimelineEntry
  device_states : List (String × ℕ)
  simulation_timestamp : ℚ

/-- Reading a captured snapshot: dereference every address of the shallow
copy in a given heap. -/
def read_snapshot (s : Store) (snap : List (String × ℕ)) :
    List (String × DeviceState) :=
  snap.map (fun p => (p.1, s.cells p.2))

/-- `_calculate_results` under reference semantics (every state read goes
through the heap; the `device_states` field is the shallow copy). -/
def h_calculate_results (w : World) (attack_scenario : Scenario)
    (propagation_steps : List PropStep) (now : ℚ) : HSimResult :=
  let g := w.eng.graph
  let total_devices := g.nodes.length
  let affected_devices :=
    (w.eng.device_cells.filter (fun p => (w.store.cells p.2).compromised)).length
  let initial_risk := listMean ((nodeNames g).map (riskOf g))
  let compromised_risk_scores :=
    ((nodeNames g).filter (fun d => (h_stateOf w d).compromised)).map (riskOf g)
  let post_attack_risk :=
    if compromised_risk_scores.isEmpty then initial_risk
    else listMean compromised_risk_scores *
      ((affected_devices : ℚ) / (total_devices : ℚ))
  let risk_increase :=
    if compromised_risk_scores.isEmpty then 0
    else post_attack_risk - initial_risk
  let attack_duration :=
    match w.eng.attack_timeline with
    | [] => 0
    | t :: ts => ts.foldl (fun m te => max m te.time) t.time
  let propagation_rate :=
    if total_devices > 0 then (affected_devices : ℚ) / (total_devices : ℚ)
    else 0
  let critical_devices :=
    (w.eng.device_cells.filter (fun p =>
      (w.store.cells p.2).compromised &&
        decide ((0.7 : ℚ) < riskOf g p.1))).map Prod.fst
  let uncompromised_critical :=
    (nodeNames g).filter (fun d =>
      !(h_stateOf w d).compromised && decide ((0.7 : ℚ) < riskOf g d))
  let all_critical :=
    (nodeNames g).filter (fun d => decide ((0.7 : ℚ) < riskOf g d))
  let resilience_score :=
    (uncompromised_critical.length : ℚ) / ((max 1 all_critical.length : ℕ) : ℚ)
  { attack_scenario := attack_scenario
    total_devices := total_devices
    affected_devices := affected_devices
    propagation_rate := propagation_rate
    overall_risk_score := post_attack_risk
    initial_risk_score := initial_risk
    risk_increase := risk_increase
    attack_duration := attack_duration
    attack_path := sort_by_time w.eng.attack_timeline
    propagation_steps := propagation_steps
    critical_devices_compromised := critical_devices
    network_resilience_score := resilience_score
    compromise_timeline := w.eng.attack_timeline
    device_states := w.eng.device_cells
    simulation_timestamp := now }

/-- `simulate_attack` under reference semantics. -/
def h_simulate (w : World) (attack_scenario : Scenario) (rng : ℕ → ℚ)
    (now : ℚ) : HRes HSimResult :=
  match h_reset w with
  | .err w1 er => .err w1 er
  | .ok w1 _ =>
    match h_compromise_entries w1 attack_scenario.attack_entry with
    | .err w2 er => .err w2 er
    | .ok w2 _ =>
      let attack_queue := attack_scenario.attack_entry.map (fun d => (d, (0 : ℚ)))
      match h_propagation_loop rng
          (attack_scenario.attack_entry.length + w2.eng.device_cells.length)
          w2 attack_queue [] 0 with
      | .err w3 er => .err w3 er
      | .ok w3 none => .err w3 .fuelOut
      | .ok w3 (some propagation_steps) =>
        .ok w3 (h_calculate_results w3 attack_scenario propagation_steps now)

/-- A later engine operation: `reset()` or a whole `simulate` call. -/
inductive HOp where
  | reset : HOp
  | simulate : Scenario → (ℕ → ℚ) → ℚ → HOp

/-- Apply one later operation to the engine object (the world it leaves
behind, whether or not it raised). -/
def h_apply (w : World) : HOp → World
  | .reset => (h_reset w).world
  | .simulate sc rng now => (h_simulate w sc rng now).world

/-- Apply a sequence of later operations. -/
def h_apply_ops (w : World) : List HOp → World
  | [] => w
  | op :: ops => h_apply_ops (h_apply w op) ops

/-- Address-validity of a world: every cell address of the engine's state
dict is below the heap's allocation frontier (holds for every world
produced by `h_reset`/`h_simulate`). -/
def WorldWF (w : World) : Prop :=
  ∀ p ∈ w.eng.device_cells, p.2 < w.store.next

/-- Scenario with an empty entry-point list. -/
def sc_empty : Scenario := ⟨[], "no entry points"⟩

/-- Scenario whose second entry names a device absent from `cfg_ab`. -/
def sc_ghost : Scenario := ⟨["A", "Ghost"], "bad scenario"⟩

/-- The element `m` is the first maximum of `l` under the key `f`: every
element before it has a strictly smaller key, every element after it a key
no greater (Python's `max(l, key=f)` tie-breaking). -/
def is_first_max {α : Type} (f : α → ℚ) (l : List α) (m : α) : Prop :=
  ∃ l1 l2, l = l1 ++ m :: l2 ∧ (∀ y ∈ l1, f y < f m) ∧ (∀ y ∈ l2, f y ≤ f m)

/-- Equality of the simulation-relevant graph core — node names with their
risk scores, and the edge list (the per-run compromise attributes may
differ). -/
def GraphCoreEq (g g2 : DiGraph) : Prop :=
  g.nodes.map (fun p => (p.1, p.2.risk_score)) =
    g2.nodes.map (fun p => (p.1, p.2.risk_score)) ∧ g.edges = g2.edges

/-- Every timeline entry of the engine has a non-negative time. -/
def TimelineNonneg (e : Engine) : Prop :=
  ∀ te ∈ e.attack_timeline, 0 ≤ te.time

/-- The compromised flag of a device's state entry (false when absent). -/
def deviceCompromised (e : Engine) (d : String) : Bool :=
  ((lookupA e.device_states d).map DeviceState.compromised).getD false

/-- Default results record of the reference-semantics model (used only to
totalise `HRes.resultD`). -/
def default_hresult : HSimResult :=
  ⟨⟨[], ""⟩, 0, 0, 0, 0, 0, 0, 0, [], [], [], 0, [], [], 0⟩

/-- A fresh world holding the `eng_ab` graph: empty state dict, empty
heap (every simulate call starts by resetting, which allocates the actual
state cells). -/
def w_ab : World :=
  ⟨⟨eng_ab.graph, [], []⟩, ⟨fun _ => ⟨false, 0, none, none, 0⟩, 0⟩⟩

/-- Out-degree of a node (number of outgoing edges). -/
def outDeg (g : DiGraph) (d : String) : ℕ := (successors g d).length

/-- Sum of out-degrees over a list of node names. -/
def sumOutDeg (g : DiGraph) (l : List String) : ℕ := (l.map (outDeg g)).sum

/-- Names of the not-yet-compromised devices (the second summand of the
propagation loop's potential function). -/
def uncompNames (e : Engine) : List String :=
  (nodeNames e.graph).filter (fun d => !(deviceCompromised e d))

/-!
## Theorems

Generic lemmas about the association-list, sorting and maximum helpers,
then the invariants of the engine operations, then one theorem per claim.
-/

theorem lookupA_updA_self {α : Type} {l : List (String × α)} {k : String}
    {v : α} (f : α → α) (h : lookupA l k = some v) :
    lookupA (updA l k f) k = some (f v) := by
  induction l with
  | nil => simp [lookupA] at h
  | cons p rest ih =>
    obtain ⟨a, b⟩ := p
    by_cases hk : a = k
    · subst hk
      simp [lookupA] at h
      simp [updA, lookupA, h]
    · simp [lookupA, hk] at h
      simp [updA, lookupA, hk, ih h]

theorem lookupA_updA_other {α : Type} (l : List (String × α)) (k k2 : String)
    (f : α → α) (h : k2 ≠ k) :
    lookupA (updA l k f) k2 = lookupA l k2 := by
  induction l with
  | nil => simp [updA]
  | cons p rest ih =>
    obtain ⟨a, b⟩ := p
    by_cases hk : a = k
    · subst hk
      have : a ≠ k2 := fun hc => h (hc ▸ rfl)
      simp [updA, lookupA, this]
    · simp [updA, hk, lookupA]
      by_cases h2 : a = k2
      · simp [h2]
      · simp [h2, ih]

theorem map_fst_updA {α : Type} (l : List (String × α)) (k : String)
    (f : α → α) : (updA l k f).map Prod.fst = l.map Prod.fst := by
  induction l with
  | nil => simp [updA]
  | cons p rest ih =>
    obtain ⟨a, b⟩ := p
    by_cases hk : a = k
    · simp [updA, hk]
    · simp [updA, hk, ih]

theorem countP_updA_compromise (l : List (String × DeviceState)) (k : String)
    (st : DeviceState) (f : DeviceState → DeviceState)
    (hl : lookupA l k = some st) (hc : st.compromised = false)
    (hf : (f st).compromised = true) :
    (updA l k f).countP (fun p => !p.2.compromised) + 1 =
      l.countP (fun p => !p.2.compromised) := by
  induction l with
  | nil => simp [lookupA] at hl
  | cons p rest ih =>
    obtain ⟨a, b⟩ := p
    by_cases hk : a = k
    · subst hk
      simp [lookupA] at hl
      subst hl
      simp [updA, List.countP_cons, hc, hf]
    · simp [lookupA, hk] at hl
      simp [updA, hk, List.countP_cons]
      have := ih hl
      omega

theorem countP_updA_le (l : List (String × DeviceState)) (k : String)
    (f : DeviceState → DeviceState) (hf : ∀ st, (f st).compromised = true) :
    (updA l k f).countP (fun p => !p.2.compromised) ≤
      l.countP (fun p => !p.2.compromised) := by
  induction l with
  | nil => simp [updA]
  | cons p rest ih =>
    obtain ⟨a, b⟩ := p
    by_cases hk : a = k
    · simp [updA, hk, List.countP_cons, hf]
    · simp [updA, hk, List.countP_cons]
      omega

theorem mem_insert_by_time {z x : TimelineEntry} {l : List TimelineEntry} :
    z ∈ insert_by_time x l ↔ z = x ∨ z ∈ l := by
  induction l with
  | nil => simp [insert_by_time]
  | cons y ys ih =>
    by_cases hc : y.time < x.time
    · simp [insert_by_time, hc, ih]
      tauto
    · simp [insert_by_time, hc]

theorem pairwise_insert_by_time {x : TimelineEntry} {l : List TimelineEntry}
    (h : l.Pairwise (fun a b => a.time ≤ b.time)) :
    (insert_by_time x l).Pairwise (fun a b => a.time ≤ b.time) := by
  induction l with
  | nil => simp [insert_by_time]
  | cons y ys ih =>
    rw [List.pairwise_cons] at h
    by_cases hc : y.time < x.time
    · rw [insert_by_time, if_pos hc, List.pairwise_cons]
      refine ⟨?_, ih h.2⟩
      intro z hz
      rcases mem_insert_by_time.mp hz with hz | hz
      · exact hz ▸ le_of_lt hc
      · exact h.1 z hz
    · rw [insert_by_time, if_neg hc, List.pairwise_cons]
      push_neg at hc
      refine ⟨?_, List.pairwise_cons.mpr h⟩
      intro z hz
      rcases List.mem_cons.mp hz with hz | hz
      · exact hz ▸ hc
      · exact le_trans hc (h.1 z hz)

theorem sort_by_time_pairwise (l : List TimelineEntry) :
    (sort_by_time l).Pairwise (fun a b => a.time ≤ b.time) := by
  induction l with
  | nil => simp [sort_by_time]
  | cons x xs ih => exact pairwise_insert_by_time ih

theorem sort_by_time_perm (l : List TimelineEntry) :
    (sort_by_time l).Perm l := by
  induction l with
  | nil => simp [sort_by_time]
  | cons x xs ih =>
    have key : ∀ (m : List TimelineEntry), (insert_by_time x m).Perm (x :: m) := by
      intro m
      induction m with
      | nil => simp [insert_by_time]
      | cons y ys ihy =>
        by_cases hc : y.time < x.time
        · rw [insert_by_time, if_pos hc]
          exact (ihy.cons y).trans (List.Perm.swap x y ys)
        · rw [insert_by_time, if_neg hc]
    rw [sort_by_time]
    exact (key (sort_by_time xs)).trans (ih.cons x)

theorem filter_insert_by_time (x : TimelineEntry) (l : List TimelineEntry)
    (t : ℚ) :
    (insert_by_time x l).filter (fun e => decide (e.time = t)) =
      if x.time = t then x :: l.filter (fun e => decide (e.time = t))
      else l.filter (fun e => decide (e.time = t)) := by
  induction l with
  | nil =>
    by_cases hx : x.time = t <;> simp [insert_by_time, hx]
  | cons y ys ih =>
    by_cases hc : y.time < x.time
    · rw [insert_by_time, if_pos hc]
      by_cases hy : y.time = t
      · have hx : ¬ x.time = t := by
          intro hx
          rw [hx, ← hy] at hc
          exact lt_irrefl _ hc
        simp [List.filter_cons, hy, ih, hx]
      · simp only [List.filter_cons, decide_eq_true_eq, hy, if_false, ih]
    · rw [insert_by_time, if_neg hc]
      by_cases hx : x.time = t <;>
        simp [List.filter_cons, hx]

theorem filter_sort_by_time (l : List TimelineEntry) (t : ℚ) :
    (sort_by_time l).filter (fun e => decide (e.time = t)) =
      l.filter (fun e => decide (e.time = t)) := by
  induction l with
  | nil => simp [sort_by_time]
  | cons x xs ih =>
    rw [sort_by_time, filter_insert_by_time]
    by_cases hx : x.time = t <;> simp [List.filter_cons, hx, ih]

theorem pymax_foldl_first_max {α : Type} (f : α → ℚ) :
    ∀ (xs : List α) (b : α),
      (xs.foldl (fun c a => if f c < f a then a else c) b = b ∧
        ∀ y ∈ xs, f y ≤ f b) ∨
      (∃ l1 m l2, xs = l1 ++ m :: l2 ∧
        xs.foldl (fun c a => if f c < f a then a else c) b = m ∧
        f b < f m ∧ (∀ y ∈ l1, f y < f m) ∧ (∀ y ∈ l2, f y ≤ f m)) := by
  intro xs
  induction xs with
  | nil => intro b; left; simp
  | cons a rest ih =>
    intro b
    by_cases hc : f b < f a
    · rcases ih a with ⟨heq, hle⟩ | ⟨l1, m, l2, hsplit, heq, hlt, hl1, hl2⟩
      · right
        refine ⟨[], a, rest, by simp, ?_, hc, by simp, hle⟩
        simpa [hc] using heq
      · right
        refine ⟨a :: l1, m, l2, by simp [hsplit], ?_, lt_trans hc hlt, ?_, hl2⟩
        · simpa [hc] using heq
        · intro y hy
          rcases List.mem_cons.mp hy with hy | hy
          · exact hy ▸ hlt
          · exact hl1 y hy
    · push_neg at hc
      rcases ih b with ⟨heq, hle⟩ | ⟨l1, m, l2, hsplit, heq, hlt, hl1, hl2⟩
      · left
        constructor
        · simpa [not_lt.mpr hc] using heq
        · intro y hy
          rcases List.mem_cons.mp hy with hy | hy
          · exact hy ▸ hc
          · exact hle y hy
      · right
        refine ⟨a :: l1, m, l2, by simp [hsplit], ?_, hlt, ?_, hl2⟩
        · simpa [not_lt.mpr hc] using heq
        · intro y hy
          rcases List.mem_cons.mp hy with hy | hy
          · exact hy ▸ lt_of_le_of_lt hc hlt
          · exact hl1 y hy

theorem pymax_by_first_max {α : Type} (f : α → ℚ) (x : α) (xs : List α) :
    ∃ m, pymax_by f (x :: xs) = some m ∧ is_first_max f (x :: xs) m := by
  rcases pymax_foldl_first_max f xs x with ⟨heq, hle⟩ |
      ⟨l1, m, l2, hsplit, heq, hlt, hl1, hl2⟩
  · exact ⟨x, by simp [pymax_by, heq], [], xs, rfl, by simp, hle⟩
  · exact ⟨m, by simp [pymax_by, heq], x :: l1, l2, by simp [hsplit],
      by
        intro y hy
        rcases List.mem_cons.mp hy with hy | hy
        · exact hy ▸ hlt
        · exact hl1 y hy,
      hl2⟩

/-- C1, counterexample: the claim asserts the resilience score equals 1.0
whenever the network contains no device with risk score above 0.7.  On the
one-device network `{A: 0.5}` (no high-risk device) a completed run yields
resilience 0, not 1: the source divides by `max(1, 0)` and the numerator
is empty, so `0 / 1 = 0`. -/
theorem C1_counterexample :
    ((nodeNames eng_low.graph).filter
      (fun d => decide ((0.7 : ℚ) < riskOf eng_low.graph d)) = []) ∧
    (simulate_attack eng_low sc_a (fun _ => 0.5) 0).isOk = true ∧
    ((simulate_attack eng_low sc_a (fun _ => 0.5) 0).resultD
      default_result).network_resilience_score = 0 ∧
    ((simulate_attack eng_low sc_a (fun _ => 0.5) 0).resultD
      default_result).network_resilience_score ≠ 1 := by
  with_unfolding_all decide

/-- C2, counterexample: the claim asserts that a scenario with an empty
entry-point list makes `simulate` fail with `InvalidScenarioError` and
never return a result.  The source performs no validation: on the empty
entry list the run completes normally and returns a results record with
zero affected devices. -/
theorem C2_counterexample :
    (simulate_attack eng_ab sc_empty (fun _ => 0.5) 0).isOk = true ∧
    ((simulate_attack eng_ab sc_empty (fun _ => 0.5) 0).resultD
      default_result).affected_devices = 0 := by
  with_unfolding_all decide

/-- C3, counterexample: the claim asserts that building a network whose
dependency references an unknown device, or whose risk score is outside
[0,1], fails with `ConfigurationError` rather than building a graph.  The
source validates nothing: the dangling configuration builds a graph in
which `nx.add_edge` silently auto-created the node `"Ghost"` without a
risk score, the out-of-range risk score 1.5 is stored unchanged, and the
failure that does eventually occur is a `KeyError("risk_score")` raised
later by `_initialize_device_states` in the constructor. -/
theorem C3_counterexample :
    build_network_graph cfg_dangling =
      ⟨[("A", ⟨some (1/2), false, none, none⟩),
        ("Ghost", ⟨none, false, none, none⟩)], [("A", "Ghost", 1)]⟩ ∧
    getNode (build_network_graph cfg_out_of_range) "A" =
      some ⟨some (3/2), false, none, none⟩ ∧
    mk_simulator cfg_dangling = .error (.keyError "risk_score") := by
  refine ⟨by with_unfolding_all decide, by with_unfolding_all decide, ?_⟩
  with_unfolding_all rfl

/-- C4, counterexample: the claim asserts that two `simulate` calls on
identical (network, scenario) inputs with a fixed random seed produce
byte-identical results.  The results record embeds the wall-clock
`time.time()` of the call as `simulation_timestamp`, so two calls at
different instants — here modelled by clock values 0 and 1 with the same
random stream — return records that differ (precisely in that field). -/
theorem C4_counterexample :
    simulate_attack eng_ab sc_a (fun _ => 0.99) 0 ≠
      simulate_attack eng_ab sc_a (fun _ => 0.99) 1 ∧
    ((simulate_attack eng_ab sc_a (fun _ => 0.99) 0).resultD
        default_result).simulation_timestamp ≠
      ((simulate_attack eng_ab sc_a (fun _ => 0.99) 1).resultD
        default_result).simulation_timestamp := by
  with_unfolding_all decide

/-- C5, counterexample: on the network `{A: 0.9, B: 0.1}` with dependency
`A→B` of weight 2 and entry `[A]`, with every draw 0.99, the claim expects
`riskIncrease = 0`.  The run completes with B uncompromised, but the source
computes `risk_increase = mean(compromised risks) * (1/2) - mean(all risks)
= 0.45 - 0.5 = -0.05 ≠ 0`, because device A was compromised (the
`risk_increase = 0` branch only fires when NOTHING is compromised). -/
theorem C5_counterexample :
    (simulate_attack eng_ab sc_a (fun _ => 0.99) 0).isOk = true ∧
    ((simulate_attack eng_ab sc_a (fun _ => 0.99) 0).resultD
      default_result).risk_increase ≠ 0 := by
  with_unfolding_all decide

/-- C5, amended: same scenario; B is uncompromised, `affectedDevices = 1`
and `propagationRate = 0.5` as claimed, but the risk increase is `-0.05`
(the post-attack risk 0.9·(1/2) minus the initial mean 0.5), not 0. -/
theorem C5_amended_holds :
    (simulate_attack eng_ab sc_a (fun _ => 0.99) 0).isOk = true ∧
    (lookupA ((simulate_attack eng_ab sc_a (fun _ => 0.99) 0).resultD
      default_result).device_states "B").map DeviceState.compromised =
      some false ∧
    ((simulate_attack eng_ab sc_a (fun _ => 0.99) 0).resultD
      default_result).affected_devices = 1 ∧
    ((simulate_attack eng_ab sc_a (fun _ => 0.99) 0).resultD
      default_result).propagation_rate = 1/2 ∧
    ((simulate_attack eng_ab sc_a (fun _ => 0.99) 0).resultD
      default_result).risk_increase = -1/20 := by
  with_unfolding_all decide

/-- C9, counterexample: the claim asserts that when several devices tie
for the maximum, the lexicographically smallest name is reported.  On the
two-device network inserted as `B` then `A` with equal risk scores (and
equal betweenness 0), the source's `max(..., key=...)` keeps the first
element in insertion order, reporting `"B"` both as most vulnerable and as
most central even though `"A" < "B"`. -/
theorem C9_counterexample :
    riskOf g_tie "A" = riskOf g_tie "B" ∧ "A" < "B" ∧
    betweenness_centrality g_tie "A" = betweenness_centrality g_tie "B" ∧
    most_vulnerable g_tie = some "B" ∧ most_central g_tie = some "B" := by
  refine ⟨by with_unfolding_all decide, ?_, by with_unfolding_all decide,
    by with_unfolding_all decide, by with_unfolding_all decide⟩
  rw [String.lt_iff_toList_lt]
  decide

theorem lookupA_map {α β : Type} (l : List (String × α)) (k : String)
    (g : α → β) :
    lookupA (l.map (fun p => (p.1, g p.2))) k = (lookupA l k).map g := by
  induction l with
  | nil => simp [lookupA]
  | cons p rest ih =>
    obtain ⟨a, b⟩ := p
    by_cases hk : a = k <;> simp [lookupA, hk, ih]

theorem lookupA_isSome_of_mem_fst {α : Type} {l : List (String × α)}
    {k : String} (h : k ∈ l.map Prod.fst) : (lookupA l k).isSome = true := by
  induction l with
  | nil => simp at h
  | cons p rest ih =>
    obtain ⟨a, b⟩ := p
    by_cases hk : a = k
    · simp [lookupA, hk]
    · simp [lookupA, hk]
      rcases List.mem_map.mp h with ⟨q, hq, hqk⟩
      rcases List.mem_cons.mp hq with hq | hq
      · rw [hq] at hqk
        exact absurd hqk hk
      · exact ih (List.mem_map.mpr ⟨q, hq, hqk⟩)

theorem map_updA_of_preserve {α β : Type} (l : List (String × α)) (k : String)
    (f : α → α) (g : α → β) (hf : ∀ a, g (f a) = g a) :
    (updA l k f).map (fun p => (p.1, g p.2)) =
      l.map (fun p => (p.1, g p.2)) := by
  induction l with
  | nil => simp [updA]
  | cons p rest ih =>
    obtain ⟨a, b⟩ := p
    by_cases hk : a = k <;> simp [updA, hk, hf, ih]

theorem graphCoreEq_refl (g : DiGraph) : GraphCoreEq g g := ⟨rfl, rfl⟩

theorem graphCoreEq_trans {g1 g2 g3 : DiGraph} (h1 : GraphCoreEq g1 g2)
    (h2 : GraphCoreEq g2 g3) : GraphCoreEq g1 g3 :=
  ⟨h1.1.trans h2.1, h1.2.trans h2.2⟩

theorem graphCoreEq_names {g g2 : DiGraph} (h : GraphCoreEq g g2) :
    nodeNames g = nodeNames g2 := by
  have := congrArg (List.map Prod.fst) h.1
  simpa [nodeNames, List.map_map, Function.comp] using this

theorem graphCoreEq_riskOf {g g2 : DiGraph} (h : GraphCoreEq g g2)
    (d : String) : riskOf g d = riskOf g2 d := by
  have h1 := congrArg (fun l => lookupA l d) h.1
  simp only [lookupA_map] at h1
  unfold riskOf getNode
  cases hg : lookupA g.nodes d with
  | none =>
    rw [hg] at h1
    cases hg2 : lookupA g2.nodes d with
    | none => rfl
    | some nd2 => rw [hg2] at h1; simp at h1
  | some nd =>
    rw [hg] at h1
    cases hg2 : lookupA g2.nodes d with
    | none => rw [hg2] at h1; simp at h1
    | some nd2 =>
      rw [hg2] at h1
      simp at h1
      simp [h1]

theorem graphCoreEq_risk_isSome {g g2 : DiGraph} (h : GraphCoreEq g g2)
    (hr : ∀ p ∈ g.nodes, p.2.risk_score.isSome = true) :
    ∀ p ∈ g2.nodes, p.2.risk_score.isSome = true := by
  intro p hp
  have h2 := congrArg (List.map Prod.snd) h.1
  simp only [List.map_map] at h2
  have hmem : p.2.risk_score ∈ g2.nodes.map (fun q => q.2.risk_score) := by
    exact List.mem_map.mpr ⟨p, hp, rfl⟩
  have : g2.nodes.map (fun q => q.2.risk_score) =
      g.nodes.map (fun q => q.2.risk_score) := by
    have := congrArg (List.map Prod.snd) h.1
    simpa [List.map_map, Function.comp] using this.symm
  rw [this] at hmem
  rcases List.mem_map.mp hmem with ⟨q, hq, hqe⟩
  rw [← hqe]
  exact hr q hq

theorem propagation_delay_ge_one {e : Engine} {src tgt : String} {w u dl : ℚ}
    (h : calculate_propagation_delay e src tgt w u = .ok dl) : 1 ≤ dl := by
  unfold calculate_propagation_delay at h
  cases hl : lookupA e.device_states tgt with
  | none => rw [hl] at h; simp at h
  | some st =>
    rw [hl] at h
    simp at h
    rw [← h]
    exact le_max_right _ _

theorem compromise_device_ok_facts {e : Engine} {d : String} {t : ℚ}
    {av : String} {e2 : Engine} {u : Unit}
    (h : compromise_device e d t av = .ok e2 u) :
    GraphCoreEq e.graph e2.graph ∧
    e2.device_states.map Prod.fst = e.device_states.map Prod.fst ∧
    (∃ te, e2.attack_timeline = e.attack_timeline ++ [te] ∧ te.time = t) ∧
    (∀ d2, d2 ≠ d → lookupA e2.device_states d2 = lookupA e.device_states d2) ∧
    deviceCompromised e2 d = true ∧
    uncompromisedCount e2 ≤ uncompromisedCount e ∧
    (deviceCompromised e d = false →
      uncompromisedCount e2 + 1 = uncompromisedCount e) := by
  cases hl : lookupA e.device_states d with
  | none => simp [compromise_device, hl] at h
  | some st =>
    cases hn : getNode e.graph d with
    | none => simp [compromise_device, hl, hn] at h
    | some nd =>
      cases hr : nd.risk_score with
      | none => simp [compromise_device, hl, hn, hr] at h
      | some r =>
        simp only [compromise_device, hl, hn, hr, Res.ok.injEq] at h
        obtain ⟨he2, _⟩ := h
        subst he2
        refine ⟨⟨?_, rfl⟩, ?_, ⟨⟨d, t, r, av⟩, rfl, rfl⟩, ?_, ?_, ?_, ?_⟩
        · exact (map_updA_of_preserve e.graph.nodes d
            (fun n => { n with
              compromised := true
              compromise_time := some t
              attack_vector := some av })
            NodeData.risk_score (fun a => rfl)).symm
        · exact map_fst_updA _ _ _
        · intro d2 hd2
          exact lookupA_updA_other _ _ _ _ hd2
        · unfold deviceCompromised
          show ((lookupA (updA e.device_states d _) d).map
            DeviceState.compromised).getD false = true
          rw [lookupA_updA_self _ hl]
          rfl
        · exact countP_updA_le _ _ _ (fun st => rfl)
        · intro hc
          unfold deviceCompromised at hc
          rw [hl] at hc
          simp at hc
          exact countP_updA_compromise _ _ _ _ hl hc rfl

theorem compromise_device_mono {e : Engine} {d : String} {t : ℚ}
    {av : String} {e2 : Engine} {u : Unit}
    (h : compromise_device e d t av = .ok e2 u) (x : String)
    (hx : deviceCompromised e x = true) : deviceCompromised e2 x = true := by
  obtain ⟨_, _, _, hother, hd, _, _⟩ := compromise_device_ok_facts h
  by_cases hxd : x = d
  · exact hxd ▸ hd
  · unfold deviceCompromised at hx ⊢
    rw [hother x hxd]
    exact hx

/-- C4, amended: with the same random draw stream, two `simulate` calls on
identical (network, scenario) inputs produce results that agree on every
field except `simulation_timestamp`, which records each call's own
wall-clock instant. -/
theorem C4_amended (e : Engine) (sc : Scenario) (rng : ℕ → ℚ)
    (now1 now2 : ℚ) :
    erase_timestamp (simulate_attack e sc rng now1) =
      erase_timestamp (simulate_attack e sc rng now2) := by
  unfold simulate_attack
  cases reset_simulation e with
  | err e1 er => rfl
  | ok e1 u =>
    dsimp only
    cases compromise_entries e1 sc.attack_entry with
    | err e2 er => rfl
    | ok e2 u2 =>
      dsimp only
      cases propagation_loop rng
          (sc.attack_entry.length + e2.device_states.length) e2
          (sc.attack_entry.map (fun d => (d, (0 : ℚ)))) [] 0 with
      | err e3 er => rfl
      | ok e3 osteps =>
        cases osteps with
        | none => rfl
        | some steps => rfl

/-- C6: for an edge `source → target` evaluated at time `t`, where the
target's stored risk score is `r`, the edge weight is `w`, and `c` of the
target's predecessors are compromised at the moment of evaluation, the
computed success probability is exactly
`min(r * min(w/2, 1) * max(0.1, 1 - t/100) * (1 + 0.2*c), 0.95)`, and any
probability the method returns never exceeds 0.95. -/
theorem C6_probability_formula (e : Engine) (source target : String)
    (t r w : ℚ) (nd : NodeData) (c : ℕ)
    (hn : getNode e.graph target = some nd) (hr : nd.risk_score = some r)
    (hw : lookupEdge e.graph.edges source target = some w)
    (hc : count_compromised_preds e (predecessors e.graph target) = .ok c) :
    calculate_attack_probability e source target t =
      .ok (min (r * min (w / 2) 1 * max 0.1 (1 - t / 100) * (1 + 0.2 * c))
        0.95) ∧
    ∀ p, calculate_attack_probability e source target t = .ok p →
      p ≤ 0.95 := by
  have hmain : calculate_attack_probability e source target t =
      .ok (min (r * min (w / 2) 1 * max 0.1 (1 - t / 100) * (1 + 0.2 * c))
        0.95) := by
    simp only [calculate_attack_probability, hn, Option.some_bind, hr, hw, hc]
    have hcomm : (1 + (c : ℚ) * 0.2) = (1 + 0.2 * c) := by ring
    rw [hcomm]
  refine ⟨hmain, ?_⟩
  intro p hp
  rw [hmain] at hp
  simp only [Except.ok.injEq] at hp
  rw [← hp]
  exact min_le_right _ _

/-- C6, witness: the formula evaluated on the concrete engine `eng_ab`
for the edge `A → B` at time 0 with no compromised predecessor. -/
theorem C6_probability_formula_witness :
    getNode eng_ab.graph "B" =
      some ⟨some (1/10), false, none, none⟩ ∧
    (⟨some (1/10), false, none, none⟩ : NodeData).risk_score = some (1/10) ∧
    lookupEdge eng_ab.graph.edges "A" "B" = some 2 ∧
    count_compromised_preds eng_ab (predecessors eng_ab.graph "B") = .ok 0 ∧
    (calculate_attack_probability eng_ab "A" "B" 0 =
      .ok (min ((1/10) * min ((2:ℚ) / 2) 1 * max 0.1 (1 - (0:ℚ) / 100) *
        (1 + 0.2 * (0:ℕ))) 0.95) ∧
    ∀ p, calculate_attack_probability eng_ab "A" "B" 0 = .ok p →
      p ≤ 0.95) :=
  ⟨by with_unfolding_all rfl, rfl, by with_unfolding_all rfl,
    by with_unfolding_all rfl,
    C6_probability_formula eng_ab "A" "B" 0 (1/10) 2
      ⟨some (1/10), false, none, none⟩ 0 (by with_unfolding_all rfl) rfl
      (by with_unfolding_all rfl) (by with_unfolding_all rfl)⟩

theorem deviceCompromised_false_of_lookup {e : Engine} {d : String}
    {st : DeviceState} (hl : lookupA e.device_states d = some st)
    (hc : st.compromised = false) : deviceCompromised e d = false := by
  unfold deviceCompromised
  rw [hl]
  simpa using hc

theorem attempt_neighbors_ok_facts (rng : ℕ → ℚ) (cd : String) (ct : ℚ) :
    ∀ (nbs : List String) (e : Engine) (queue : List (String × ℚ))
      (steps : List PropStep) (rix : ℕ) (e2 : Engine)
      (out : List (String × ℚ) × List PropStep × ℕ),
      attempt_neighbors rng cd ct e nbs queue steps rix = .ok e2 out →
      GraphCoreEq e.graph e2.graph ∧
      e2.device_states.map Prod.fst = e.device_states.map Prod.fst ∧
      out.1.length + uncompromisedCount e2 ≤
        queue.length + uncompromisedCount e ∧
      (∃ tl, e2.attack_timeline = e.attack_timeline ++ tl ∧
        (0 ≤ ct → ∀ te ∈ tl, 0 ≤ te.time)) ∧
      (∃ qtl, out.1 = queue ++ qtl ∧ (0 ≤ ct → ∀ p ∈ qtl, 0 ≤ p.2) ∧
        (∀ p ∈ qtl, deviceCompromised e2 p.1 = true ∧
          deviceCompromised e p.1 = false) ∧
        (qtl.map Prod.fst).Nodup) ∧
      (∀ x, deviceCompromised e x = true → deviceCompromised e2 x = true) := by
  intro nbs
  induction nbs with
  | nil =>
    intro e queue steps rix e2 out h
    simp only [attempt_neighbors, Res.ok.injEq] at h
    obtain ⟨he, hout⟩ := h
    subst he
    subst hout
    exact ⟨graphCoreEq_refl _, rfl, le_refl _, ⟨[], by simp, by simp⟩,
      ⟨[], by simp, by simp, by simp, by simp⟩, fun x hx => hx⟩
  | cons nb rest ih =>
    intro e queue steps rix e2 out h
    cases hl : lookupA e.device_states nb with
    | none =>
      simp only [attempt_neighbors, hl] at h
      exact absurd h (by simp)
    | some st =>
      simp only [attempt_neighbors, hl] at h
      by_cases hcomp : st.compromised = true
      · rw [if_pos hcomp] at h
        exact ih e queue steps rix e2 out h
      · rw [if_neg hcomp] at h
        cases hp : calculate_attack_probability e cd nb ct with
        | error er => rw [hp] at h; simp at h
        | ok success_prob =>
          rw [hp] at h
          dsimp only at h
          by_cases hdraw : rng rix < success_prob
          · rw [if_pos hdraw] at h
            cases hw : lookupEdge e.graph.edges cd nb with
            | none => rw [hw] at h; simp at h
            | some edge_weight =>
              rw [hw] at h
              dsimp only at h
              cases hd : calculate_propagation_delay e cd nb edge_weight
                  (rng (rix + 1)) with
              | error er => rw [hd] at h; simp at h
              | ok dl =>
                rw [hd] at h
                dsimp only at h
                cases hcmp : compromise_device e nb (ct + dl)
                    ("Lateral movement from " ++ cd) with
                | err e3 er => rw [hcmp] at h; simp at h
                | ok ec u =>
                  rw [hcmp] at h
                  dsimp only at h
                  obtain ⟨hg_c, hs_c, ⟨te, htl_c, hte⟩, hother_c, hcompd_c,
                    hle_c, hdec_c⟩ := compromise_device_ok_facts hcmp
                  have hfalse : deviceCompromised e nb = false := by
                    simp at hcomp
                    exact deviceCompromised_false_of_lookup hl hcomp
                  have hdec := hdec_c hfalse
                  obtain ⟨hg2, hs2, hmeas2, ⟨tl2, htl2, htl2pos⟩,
                    ⟨qtl2, hq2, hq2pos, hq2comp, hq2nodup⟩, hmono2⟩ :=
                    ih ec (queue ++ [(nb, ct + dl)])
                      (steps ++ [⟨cd, nb, ct + dl, success_prob,
                        "Lateral Movement"⟩]) (rix + 2) e2 out h
                  have hdl : 1 ≤ dl := propagation_delay_ge_one hd
                  refine ⟨graphCoreEq_trans hg_c hg2, hs2.trans hs_c, ?_, ?_,
                    ?_, ?_⟩
                  · rw [List.length_append] at hmeas2
                    simp at hmeas2
                    omega
                  · refine ⟨te :: tl2, ?_, ?_⟩
                    · rw [htl2, htl_c, List.append_assoc]
                      rfl
                    · intro hct te2 hte2
                      rcases List.mem_cons.mp hte2 with hte2 | hte2
                      · rw [hte2, hte]
                        linarith
                      · exact htl2pos hct te2 hte2
                  · refine ⟨(nb, ct + dl) :: qtl2, ?_, ?_, ?_, ?_⟩
                    · rw [hq2, List.append_assoc]
                      rfl
                    · intro hct p hp2
                      rcases List.mem_cons.mp hp2 with hp2 | hp2
                      · rw [hp2]
                        show (0:ℚ) ≤ ct + dl
                        linarith
                      · exact hq2pos hct p hp2
                    · intro p hp2
                      rcases List.mem_cons.mp hp2 with hp2 | hp2
                      · subst hp2
                        exact ⟨hmono2 nb hcompd_c, hfalse⟩
                      · refine ⟨(hq2comp p hp2).1, ?_⟩
                        have h1 := (hq2comp p hp2).2
                        cases hb : deviceCompromised e p.1 with
                        | false => rfl
                        | true =>
                          rw [compromise_device_mono hcmp p.1 hb] at h1
                          simp at h1
                    · simp only [List.map_cons, List.nodup_cons]
                      refine ⟨?_, hq2nodup⟩
                      intro hmem
                      rcases List.mem_map.mp hmem with ⟨p, hp2, hpe⟩
                      have := (hq2comp p hp2).2
                      rw [hpe, hcompd_c] at this
                      exact Bool.noConfusion this
                  · intro x hx
                    exact hmono2 x (compromise_device_mono hcmp x hx)
          · rw [if_neg hdraw] at h
            exact ih e queue steps (rix + 1) e2 out h

theorem lookupA_some_mem {α : Type} {l : List (String × α)} {k : String}
    {v : α} (h : lookupA l k = some v) : (k, v) ∈ l := by
  induction l with
  | nil => simp [lookupA] at h
  | cons p rest ih =>
    obtain ⟨a, b⟩ := p
    by_cases hk : a = k
    · subst hk
      simp [lookupA] at h
      simp [h]
    · simp [lookupA, hk] at h
      exact List.mem_cons_of_mem _ (ih h)

theorem lookupEdge_isSome_aux :
    ∀ (es : List (String × String × ℚ)) (u v : String),
      v ∈ es.filterMap (fun e => if e.1 = u then some e.2.1 else none) →
      (lookupEdge es u v).isSome = true := by
  intro es
  induction es with
  | nil => intro u v h; simp at h
  | cons ed rest ih =>
    intro u v h
    obtain ⟨a, b, w⟩ := ed
    rw [List.filterMap_cons] at h
    by_cases ha : a = u
    · subst ha
      simp only [if_pos rfl] at h
      rcases List.mem_cons.mp h with h | h
      · subst h
        simp [lookupEdge]
      · unfold lookupEdge
        by_cases hb : b = v
        · simp [hb]
        · have hcb : ¬(a = a ∧ b = v) := fun hc => hb hc.2
          rw [if_neg hcb]
          exact ih a v h
    · simp only [if_neg ha] at h
      unfold lookupEdge
      have hcb : ¬(a = u ∧ b = v) := fun hc => ha hc.1
      rw [if_neg hcb]
      exact ih u v h

theorem mem_successors_lookupEdge {g : DiGraph} {u v : String}
    (h : v ∈ successors g u) : (lookupEdge g.edges u v).isSome = true := by
  unfold successors at h
  exact lookupEdge_isSome_aux g.edges u v h

theorem mem_successors_name {g : DiGraph} {u v : String}
    (he : ∀ ed ∈ g.edges, ed.1 ∈ nodeNames g ∧ ed.2.1 ∈ nodeNames g)
    (h : v ∈ successors g u) : v ∈ nodeNames g := by
  unfold successors at h
  rcases List.mem_filterMap.mp h with ⟨ed, hed, hval⟩
  by_cases ha : ed.1 = u
  · simp [ha] at hval
    exact hval ▸ (he ed hed).2
  · simp [ha] at hval

theorem mem_predecessors_name {g : DiGraph} {t x : String}
    (he : ∀ ed ∈ g.edges, ed.1 ∈ nodeNames g ∧ ed.2.1 ∈ nodeNames g)
    (h : x ∈ predecessors g t) : x ∈ nodeNames g := by
  unfold predecessors at h
  rcases List.mem_filterMap.mp h with ⟨ed, hed, hval⟩
  by_cases ha : ed.2.1 = t
  · simp [ha] at hval
    exact hval ▸ (he ed hed).1
  · simp [ha] at hval

theorem count_preds_ok {e : Engine} :
    ∀ (preds : List String),
      (∀ p ∈ preds, p ∈ e.device_states.map Prod.fst) →
      ∃ n, count_compromised_preds e preds = .ok n := by
  intro preds
  induction preds with
  | nil => exact fun _ => ⟨0, rfl⟩
  | cons p ps ih =>
    intro hall
    have hp := lookupA_isSome_of_mem_fst (hall p (List.mem_cons_self p ps))
    obtain ⟨st, hst⟩ := Option.isSome_iff_exists.mp hp
    obtain ⟨n, hn⟩ := ih (fun x hx => hall x (List.mem_cons_of_mem _ hx))
    refine ⟨if st.compromised then n + 1 else n, ?_⟩
    simp only [count_compromised_preds, hst, hn]

theorem engineWF_transfer {e e2 : Engine} (hwf : EngineWF e)
    (hg : GraphCoreEq e.graph e2.graph)
    (hs : e2.device_states.map Prod.fst = e.device_states.map Prod.fst) :
    EngineWF e2 := by
  obtain ⟨hnd, hkeys, hrisk, hedges⟩ := hwf
  have hn := graphCoreEq_names hg
  refine ⟨hn ▸ hnd, ?_, graphCoreEq_risk_isSome hg hrisk, ?_⟩
  · rw [hs, hkeys, hn]
  · intro ed hed
    rw [← hg.2] at hed
    rw [← hn]
    exact hedges ed hed

theorem attack_probability_ok {e : Engine} {source target : String} {t : ℚ}
    (hwf : EngineWF e) (ht : target ∈ nodeNames e.graph)
    (hw : (lookupEdge e.graph.edges source target).isSome = true) :
    ∃ p, calculate_attack_probability e source target t = .ok p := by
  obtain ⟨hnd, hkeys, hrisk, hedges⟩ := hwf
  have hnode := lookupA_isSome_of_mem_fst (by simpa [nodeNames] using ht)
  obtain ⟨nd, hnd2⟩ := Option.isSome_iff_exists.mp hnode
  have hmem := lookupA_some_mem hnd2
  have hrs := hrisk (target, nd) hmem
  obtain ⟨r, hr⟩ := Option.isSome_iff_exists.mp hrs
  have hr2 : nd.risk_score = some r := hr
  obtain ⟨w, hw2⟩ := Option.isSome_iff_exists.mp hw
  obtain ⟨c, hc⟩ := count_preds_ok (predecessors e.graph target)
    (fun p hp => by
      rw [hkeys]
      exact mem_predecessors_name hedges hp)
  cases hres : calculate_attack_probability e source target t with
  | ok p => exact ⟨p, rfl⟩
  | error er =>
    exfalso
    simp only [calculate_attack_probability, getNode, hnd2, Option.some_bind,
      hr2, hw2, hc] at hres
    exact Except.noConfusion hres

theorem propagation_delay_ok {e : Engine} {source target : String}
    {w u : ℚ} (ht : target ∈ e.device_states.map Prod.fst) :
    ∃ dl, calculate_propagation_delay e source target w u = .ok dl := by
  obtain ⟨st, hst⟩ := Option.isSome_iff_exists.mp (lookupA_isSome_of_mem_fst ht)
  cases hres : calculate_propagation_delay e source target w u with
  | ok dl => exact ⟨dl, rfl⟩
  | error er =>
    exfalso
    simp only [calculate_propagation_delay, hst] at hres
    exact Except.noConfusion hres

theorem compromise_device_ok {e : Engine} {d : String} (t : ℚ) (av : String)
    (hwf : EngineWF e) (hd : d ∈ nodeNames e.graph) :
    ∃ e2, compromise_device e d t av = .ok e2 () := by
  obtain ⟨hnd, hkeys, hrisk, hedges⟩ := hwf
  have hds : d ∈ e.device_states.map Prod.fst := by rw [hkeys]; exact hd
  obtain ⟨st, hst⟩ := Option.isSome_iff_exists.mp (lookupA_isSome_of_mem_fst hds)
  have hnode := lookupA_isSome_of_mem_fst (by simpa [nodeNames] using hd)
  obtain ⟨nd, hnd2⟩ := Option.isSome_iff_exists.mp hnode
  obtain ⟨r, hr⟩ := Option.isSome_iff_exists.mp (hrisk (d, nd)
    (lookupA_some_mem hnd2))
  have hr2 : nd.risk_score = some r := hr
  cases hres : compromise_device e d t av with
  | ok e2 u =>
    exact ⟨e2, rfl⟩
  | err e2 er =>
    exfalso
    simp only [compromise_device, hst, getNode, hnd2, hr2] at hres
    exact Res.noConfusion hres

theorem attempt_neighbors_ok_exists (rng : ℕ → ℚ) (cd : String) (ct : ℚ) :
    ∀ (nbs : List String) (e : Engine) (queue : List (String × ℚ))
      (steps : List PropStep) (rix : ℕ),
      EngineWF e →
      (∀ nb ∈ nbs, nb ∈ nodeNames e.graph ∧
        (lookupEdge e.graph.edges cd nb).isSome = true) →
      ∃ e2 out, attempt_neighbors rng cd ct e nbs queue steps rix =
        .ok e2 out := by
  intro nbs
  induction nbs with
  | nil =>
    intro e queue steps rix hwf hnb
    exact ⟨e, (queue, steps, rix), rfl⟩
  | cons nb rest ih =>
    intro e queue steps rix hwf hnb
    have hnbn := (hnb nb (List.mem_cons_self nb rest)).1
    have hnbw := (hnb nb (List.mem_cons_self nb rest)).2
    have hds : nb ∈ e.device_states.map Prod.fst := by
      rw [hwf.2.1]; exact hnbn
    obtain ⟨st, hst⟩ := Option.isSome_iff_exists.mp
      (lookupA_isSome_of_mem_fst hds)
    by_cases hcomp : st.compromised = true
    · obtain ⟨e2, out, hrec⟩ := ih e queue steps rix hwf
        (fun x hx => hnb x (List.mem_cons_of_mem _ hx))
      refine ⟨e2, out, ?_⟩
      simp only [attempt_neighbors, hst, hcomp, if_true, hrec]
    · obtain ⟨p, hp⟩ := @attack_probability_ok _ _ _ ct hwf hnbn hnbw
      by_cases hdraw : rng rix < p
      · obtain ⟨w, hw⟩ := Option.isSome_iff_exists.mp hnbw
        obtain ⟨dl, hdl⟩ := @propagation_delay_ok _ cd _ w
          (rng (rix + 1)) hds
        obtain ⟨ec, hcmp⟩ := compromise_device_ok (ct + dl)
          ("Lateral movement from " ++ cd) hwf hnbn
        obtain ⟨hg_c, hs_c, _, _, _, _, _⟩ := compromise_device_ok_facts hcmp
        have hwf_c := engineWF_transfer hwf hg_c hs_c
        obtain ⟨e2, out, hrec⟩ := ih ec (queue ++ [(nb, ct + dl)])
          (steps ++ [⟨cd, nb, ct + dl, p, "Lateral Movement"⟩]) (rix + 2)
          hwf_c
          (fun x hx => by
            have := hnb x (List.mem_cons_of_mem _ hx)
            rw [← graphCoreEq_names hg_c, ← hg_c.2]
            exact this)
        refine ⟨e2, out, ?_⟩
        simp only [attempt_neighbors, hst, hcomp, Bool.false_eq_true,
          if_false, hp]
        rw [if_pos hdraw, hw]
        simp only [hdl, hcmp, hrec]
      · obtain ⟨e2, out, hrec⟩ := ih e queue steps (rix + 1) hwf
          (fun x hx => hnb x (List.mem_cons_of_mem _ hx))
        refine ⟨e2, out, ?_⟩
        simp only [attempt_neighbors, hst, hcomp, Bool.false_eq_true,
          if_false, hp]
        rw [if_neg hdraw]
        exact hrec

theorem deviceCompromised_mem_fst {e : Engine} {d : String}
    (h : deviceCompromised e d = true) :
    d ∈ e.device_states.map Prod.fst := by
  unfold deviceCompromised at h
  cases hl : lookupA e.device_states d with
  | none => rw [hl] at h; simp at h
  | some st =>
    exact List.mem_map.mpr ⟨(d, st), lookupA_some_mem hl, rfl⟩

theorem initialize_device_states_ok :
    ∀ (nodes : List (String × NodeData)),
      (∀ p ∈ nodes, p.2.risk_score.isSome = true) →
      ∃ ds, initialize_device_states nodes = .ok ds ∧
        ds.map Prod.fst = nodes.map Prod.fst ∧
        ∀ q ∈ ds, q.2.compromised = false := by
  intro nodes
  induction nodes with
  | nil => exact fun _ => ⟨[], rfl, rfl, by simp⟩
  | cons p rest ih =>
    intro hall
    obtain ⟨name, nd⟩ := p
    obtain ⟨r, hr⟩ := Option.isSome_iff_exists.mp
      (hall (name, nd) (List.mem_cons_self _ _))
    have hr2 : nd.risk_score = some r := hr
    obtain ⟨ds, hds, hmap, hunc⟩ := ih
      (fun q hq => hall q (List.mem_cons_of_mem _ hq))
    refine ⟨(name, ⟨false, 0, none, none, 1 - r⟩) :: ds, ?_, by simp [hmap], ?_⟩
    · simp only [initialize_device_states, hr2, hds]
    · intro q hq
      rcases List.mem_cons.mp hq with hq | hq
      · rw [hq]
      · exact hunc q hq

theorem graphCoreEq_resetNodes (g : DiGraph) :
    GraphCoreEq g (resetNodes g) := by
  constructor
  · simp [resetNodes, List.map_map]
  · rfl

theorem reset_simulation_ok {e : Engine} (hnd : (nodeNames e.graph).Nodup)
    (hrisk : ∀ p ∈ e.graph.nodes, p.2.risk_score.isSome = true)
    (hedges : ∀ ed ∈ e.graph.edges,
      ed.1 ∈ nodeNames e.graph ∧ ed.2.1 ∈ nodeNames e.graph) :
    ∃ e1, reset_simulation e = .ok e1 () ∧ EngineWF e1 ∧
      GraphCoreEq e.graph e1.graph ∧ e1.attack_timeline = [] ∧
      (∀ d, deviceCompromised e1 d = false) ∧
      (∀ q ∈ e1.device_states, q.2.compromised = false) := by
  obtain ⟨ds, hds, hmap, hunc⟩ := initialize_device_states_ok e.graph.nodes hrisk
  have hg := graphCoreEq_resetNodes e.graph
  have hnames := graphCoreEq_names hg
  refine ⟨⟨resetNodes e.graph, ds, []⟩, ?_, ?_, hg, rfl, ?_, hunc⟩
  · simp only [reset_simulation, hds]
  · refine ⟨hnames ▸ hnd, ?_, graphCoreEq_risk_isSome hg hrisk, ?_⟩
    · show ds.map Prod.fst = nodeNames (resetNodes e.graph)
      rw [hmap, ← hnames]
      rfl
    · intro ed hed
      rw [← hg.2] at hed
      rw [← hnames]
      exact hedges ed hed
  · intro d
    show deviceCompromised ⟨resetNodes e.graph, ds, []⟩ d = false
    unfold deviceCompromised
    cases hl : lookupA ds d with
    | none => rfl
    | some st =>
      have := hunc (d, st) (lookupA_some_mem hl)
      simpa using this

theorem compromise_entries_ok_facts :
    ∀ (ds : List String) (e : Engine) (e2 : Engine) (u : Unit),
      compromise_entries e ds = .ok e2 u →
      GraphCoreEq e.graph e2.graph ∧
      e2.device_states.map Prod.fst = e.device_states.map Prod.fst ∧
      (∃ tl, e2.attack_timeline = e.attack_timeline ++ tl ∧
        ∀ te ∈ tl, 0 ≤ te.time) ∧
      (∀ d ∈ ds, deviceCompromised e2 d = true) ∧
      (∀ x, deviceCompromised e x = true → deviceCompromised e2 x = true) := by
  intro ds
  induction ds with
  | nil =>
    intro e e2 u h
    simp only [compromise_entries, Res.ok.injEq] at h
    rw [← h.1]
    exact ⟨graphCoreEq_refl _, rfl, ⟨[], by simp, by simp⟩, by simp,
      fun x hx => hx⟩
  | cons d rest ih =>
    intro e e2 u h
    cases hcmp : compromise_device e d 0 "Initial Attack" with
    | err e3 er =>
      simp only [compromise_entries, hcmp] at h
      exact absurd h (by simp)
    | ok ec uc =>
      simp only [compromise_entries, hcmp] at h
      obtain ⟨hg_c, hs_c, ⟨te, htl_c, hte⟩, hother_c, hcompd_c, _, _⟩ :=
        compromise_device_ok_facts hcmp
      obtain ⟨hg2, hs2, ⟨tl2, htl2, htl2pos⟩, hds2, hmono2⟩ := ih ec e2 u h
      refine ⟨graphCoreEq_trans hg_c hg2, hs2.trans hs_c, ?_, ?_, ?_⟩
      · refine ⟨te :: tl2, ?_, ?_⟩
        · rw [htl2, htl_c, List.append_assoc]
          rfl
        · intro te2 hte2
          rcases List.mem_cons.mp hte2 with hte2 | hte2
          · rw [hte2, hte]
          · exact htl2pos te2 hte2
      · intro d2 hd2
        rcases List.mem_cons.mp hd2 with hd2 | hd2
        · rw [hd2]
          exact hmono2 d hcompd_c
        · exact hds2 d2 hd2
      · intro x hx
        exact hmono2 x (compromise_device_mono hcmp x hx)

theorem compromise_entries_ok_exists :
    ∀ (ds : List String) (e : Engine), EngineWF e →
      (∀ d ∈ ds, d ∈ nodeNames e.graph) →
      ∃ e2, compromise_entries e ds = .ok e2 () := by
  intro ds
  induction ds with
  | nil => exact fun e _ _ => ⟨e, rfl⟩
  | cons d rest ih =>
    intro e hwf hall
    obtain ⟨ec, hcmp⟩ := compromise_device_ok 0 "Initial Attack" hwf
      (hall d (List.mem_cons_self _ _))
    obtain ⟨hg_c, hs_c, _, _, _, _, _⟩ := compromise_device_ok_facts hcmp
    obtain ⟨e2, h2⟩ := ih ec (engineWF_transfer hwf hg_c hs_c)
      (fun x hx => (graphCoreEq_names hg_c) ▸ hall x (List.mem_cons_of_mem _ hx))
    refine ⟨e2, ?_⟩
    simp only [compromise_entries, hcmp, h2]

theorem propagation_loop_ok_facts (rng : ℕ → ℚ) :
    ∀ (fuel : ℕ) (e : Engine) (queue : List (String × ℚ))
      (steps : List PropStep) (rix : ℕ) (e2 : Engine)
      (osteps : Option (List PropStep)),
      propagation_loop rng fuel e queue steps rix = .ok e2 osteps →
      (∀ p ∈ queue, 0 ≤ p.2) →
      GraphCoreEq e.graph e2.graph ∧
      e2.device_states.map Prod.fst = e.device_states.map Prod.fst ∧
      (∃ tl, e2.attack_timeline = e.attack_timeline ++ tl ∧
        ∀ te ∈ tl, 0 ≤ te.time) := by
  intro fuel
  induction fuel with
  | zero =>
    intro e queue steps rix e2 osteps h hq
    cases queue with
    | nil =>
      simp only [propagation_loop, Res.ok.injEq] at h
      rw [← h.1]
      exact ⟨graphCoreEq_refl _, rfl, ⟨[], by simp, by simp⟩⟩
    | cons q rest =>
      obtain ⟨cd, ct⟩ := q
      simp only [propagation_loop, Res.ok.injEq] at h
      rw [← h.1]
      exact ⟨graphCoreEq_refl _, rfl, ⟨[], by simp, by simp⟩⟩
  | succ fuel ih =>
    intro e queue steps rix e2 osteps h hq
    cases queue with
    | nil =>
      simp only [propagation_loop, Res.ok.injEq] at h
      rw [← h.1]
      exact ⟨graphCoreEq_refl _, rfl, ⟨[], by simp, by simp⟩⟩
    | cons q rest =>
      obtain ⟨cd, ct⟩ := q
      cases han : attempt_neighbors rng cd ct e
          (successors e.graph cd) rest steps rix with
      | err e3 er =>
        simp only [propagation_loop, han] at h
        exact absurd h (by simp)
      | ok ea out =>
        obtain ⟨q2, steps2, rix2⟩ := out
        simp only [propagation_loop, han] at h
        obtain ⟨hg_a, hs_a, _, ⟨tla, htla, htlapos⟩,
          ⟨qtla, hqa, hqapos, _, _⟩, _⟩ :=
          attempt_neighbors_ok_facts rng cd ct (successors e.graph cd)
            e rest steps rix ea (q2, steps2, rix2) han
        have hct : (0:ℚ) ≤ ct := hq (cd, ct) (List.mem_cons_self _ _)
        have hqa2 : q2 = rest ++ qtla := hqa
        have hq2 : ∀ p ∈ q2, (0:ℚ) ≤ p.2 := by
          intro p hp
          rw [hqa2] at hp
          rcases List.mem_append.mp hp with hp | hp
          · exact hq p (List.mem_cons_of_mem _ hp)
          · exact hqapos hct p hp
        obtain ⟨hg2, hs2, ⟨tl2, htl2, htl2pos⟩⟩ :=
          ih ea q2 steps2 rix2 e2 osteps h hq2
        refine ⟨graphCoreEq_trans hg_a hg2, hs2.trans hs_a,
          ⟨tla ++ tl2, ?_, ?_⟩⟩
        · rw [htl2, htla, List.append_assoc]
        · intro te hte
          rcases List.mem_append.mp hte with hte | hte
          · exact htlapos hct te hte
          · exact htl2pos te hte

theorem propagation_loop_terminates (rng : ℕ → ℚ) :
    ∀ (fuel : ℕ) (e : Engine) (queue : List (String × ℚ))
      (steps : List PropStep) (rix : ℕ) (e2 : Engine)
      (osteps : Option (List PropStep)),
      propagation_loop rng fuel e queue steps rix = .ok e2 osteps →
      queue.length + uncompromisedCount e ≤ fuel →
      ∃ steps2, osteps = some steps2 := by
  intro fuel
  induction fuel with
  | zero =>
    intro e queue steps rix e2 osteps h hf
    cases queue with
    | nil =>
      simp only [propagation_loop, Res.ok.injEq] at h
      exact ⟨steps, h.2.symm⟩
    | cons q rest => simp at hf
  | succ fuel ih =>
    intro e queue steps rix e2 osteps h hf
    cases queue with
    | nil =>
      simp only [propagation_loop, Res.ok.injEq] at h
      exact ⟨steps, h.2.symm⟩
    | cons q rest =>
      obtain ⟨cd, ct⟩ := q
      cases han : attempt_neighbors rng cd ct e
          (successors e.graph cd) rest steps rix with
      | err e3 er =>
        simp only [propagation_loop, han] at h
        exact absurd h (by simp)
      | ok ea out =>
        obtain ⟨q2, steps2, rix2⟩ := out
        simp only [propagation_loop, han] at h
        obtain ⟨_, _, hmeas, _, _, _⟩ :=
          attempt_neighbors_ok_facts rng cd ct (successors e.graph cd)
            e rest steps rix ea (q2, steps2, rix2) han
        refine ih ea q2 steps2 rix2 e2 osteps h ?_
        simp only [List.length_cons] at hf
        simp at hmeas
        omega

theorem propagation_loop_ok_exists (rng : ℕ → ℚ) :
    ∀ (fuel : ℕ) (e : Engine) (queue : List (String × ℚ))
      (steps : List PropStep) (rix : ℕ),
      EngineWF e →
      (∀ p ∈ queue, p.1 ∈ nodeNames e.graph) →
      ∃ e2 osteps, propagation_loop rng fuel e queue steps rix =
        .ok e2 osteps := by
  intro fuel
  induction fuel with
  | zero =>
    intro e queue steps rix hwf hq
    cases queue with
    | nil => exact ⟨e, some steps, rfl⟩
    | cons q rest =>
      obtain ⟨cd, ct⟩ := q
      exact ⟨e, none, rfl⟩
  | succ fuel ih =>
    intro e queue steps rix hwf hq
    cases queue with
    | nil => exact ⟨e, some steps, rfl⟩
    | cons q rest =>
      obtain ⟨cd, ct⟩ := q
      obtain ⟨ea, out, han⟩ := attempt_neighbors_ok_exists rng cd ct
        (successors e.graph cd) e rest steps rix hwf
        (fun nb hnb => ⟨mem_successors_name hwf.2.2.2 hnb,
          mem_successors_lookupEdge hnb⟩)
      obtain ⟨q2, steps2, rix2⟩ := out
      obtain ⟨hg_a, hs_a, _, _, ⟨qtla, hqa, _, hqacomp, _⟩, _⟩ :=
        attempt_neighbors_ok_facts rng cd ct (successors e.graph cd)
          e rest steps rix ea (q2, steps2, rix2) han
      have hwfa := engineWF_transfer hwf hg_a hs_a
      have hqa2 : q2 = rest ++ qtla := hqa
      obtain ⟨e2, osteps, h2⟩ := ih ea q2 steps2 rix2 hwfa
        (by
          intro p hp
          rw [hqa2] at hp
          rw [← graphCoreEq_names hg_a]
          rcases List.mem_append.mp hp with hp | hp
          · exact hq p (List.mem_cons_of_mem _ hp)
          · have := deviceCompromised_mem_fst (hqacomp p hp).1
            rw [hs_a, hwf.2.1] at this
            exact this)
      refine ⟨e2, osteps, ?_⟩
      simp only [propagation_loop, han, h2]

theorem reset_simulation_ok_facts {e e1 : Engine} {u : Unit}
    (h : reset_simulation e = .ok e1 u) :
    GraphCoreEq e.graph e1.graph ∧ e1.attack_timeline = [] := by
  cases hi : initialize_device_states e.graph.nodes with
  | error er =>
    simp only [reset_simulation, hi] at h
    exact absurd h (by simp)
  | ok ds =>
    simp only [reset_simulation, hi, Res.ok.injEq] at h
    rw [← h.1]
    exact ⟨graphCoreEq_resetNodes _, rfl⟩

theorem simulate_attack_ok_shape {e : Engine} {sc : Scenario} {rng : ℕ → ℚ}
    {now : ℚ} {e3 : Engine} {r : SimResult}
    (h : simulate_attack e sc rng now = .ok e3 r) :
    ∃ steps, r = calculate_results e3 sc steps now ∧
      GraphCoreEq e.graph e3.graph ∧ TimelineNonneg e3 := by
  cases hrs : reset_simulation e with
  | err e1 er =>
    simp only [simulate_attack, hrs] at h
    exact absurd h (by simp)
  | ok e1 u =>
    cases hce : compromise_entries e1 sc.attack_entry with
    | err e2 er =>
      simp only [simulate_attack, hrs, hce] at h
      exact absurd h (by simp)
    | ok e2 u2 =>
      cases hpl : propagation_loop rng
          (sc.attack_entry.length + e2.device_states.length) e2
          (sc.attack_entry.map (fun d => (d, (0 : ℚ)))) [] 0 with
      | err e4 er =>
        simp only [simulate_attack, hrs, hce, hpl] at h
        exact absurd h (by simp)
      | ok e4 osteps =>
        cases osteps with
        | none =>
          simp only [simulate_attack, hrs, hce, hpl] at h
          exact absurd h (by simp)
        | some steps =>
          simp only [simulate_attack, hrs, hce, hpl, Res.ok.injEq] at h
          obtain ⟨he3, hr⟩ := h
          subst he3
          obtain ⟨hg1, htl1⟩ := reset_simulation_ok_facts hrs
          obtain ⟨hg2, _, ⟨tl0, htl0, htl0pos⟩, _, _⟩ :=
            compromise_entries_ok_facts _ _ _ _ hce
          obtain ⟨hg4, _, ⟨tl1, htl4, htl4pos⟩⟩ :=
            propagation_loop_ok_facts rng _ _ _ _ _ _ _ hpl
              (by
                intro p hp
                rcases List.mem_map.mp hp with ⟨d, _, hd⟩
                rw [← hd])
          refine ⟨steps, hr.symm,
            graphCoreEq_trans hg1 (graphCoreEq_trans hg2 hg4), ?_⟩
          intro te hte
          rw [htl4, htl0, htl1] at hte
          simp only [List.nil_append] at hte
          rcases List.mem_append.mp hte with hte | hte
          · exact htl0pos te hte
          · exact htl4pos te hte

theorem filter_and_length_le (l : List String) (p q : String → Bool) :
    (l.filter (fun d => p d && q d)).length ≤ (l.filter q).length := by
  induction l with
  | nil => simp
  | cons a rest ih =>
    by_cases hq : q a
    · by_cases hp : p a <;> simp [List.filter_cons, hp, hq] <;> omega
    · simp [List.filter_cons, hq, Bool.and_eq_true]
      exact ih

theorem calculate_results_resilience (e3 : Engine) (sc : Scenario)
    (steps : List PropStep) (now : ℚ) :
    (0 ≤ (calculate_results e3 sc steps now).network_resilience_score ∧
      (calculate_results e3 sc steps now).network_resilience_score ≤ 1) ∧
    (((nodeNames e3.graph).filter
        (fun d => decide ((0.7 : ℚ) < riskOf e3.graph d))).length = 0 →
      (calculate_results e3 sc steps now).network_resilience_score = 0) ∧
    (((nodeNames e3.graph).filter
        (fun d => decide ((0.7 : ℚ) < riskOf e3.graph d))).length ≠ 0 →
      (calculate_results e3 sc steps now).network_resilience_score =
        (((nodeNames e3.graph).filter (fun d =>
          !(stateOf e3 d).compromised &&
            decide ((0.7 : ℚ) < riskOf e3.graph d))).length : ℚ) /
        (((nodeNames e3.graph).filter
          (fun d => decide ((0.7 : ℚ) < riskOf e3.graph d))).length : ℚ)) := by
  have hres : (calculate_results e3 sc steps now).network_resilience_score =
      (((nodeNames e3.graph).filter (fun d =>
        !(stateOf e3 d).compromised &&
          decide ((0.7 : ℚ) < riskOf e3.graph d))).length : ℚ) /
      ((max 1 ((nodeNames e3.graph).filter
        (fun d => decide ((0.7 : ℚ) < riskOf e3.graph d))).length : ℕ) : ℚ) :=
    rfl
  have hle := filter_and_length_le (nodeNames e3.graph)
    (fun d => !(stateOf e3 d).compromised)
    (fun d => decide ((0.7 : ℚ) < riskOf e3.graph d))
  refine ⟨⟨?_, ?_⟩, ?_, ?_⟩
  · rw [hres]
    positivity
  · rw [hres]
    rw [div_le_one (by positivity)]
    have h1 : ((nodeNames e3.graph).filter (fun d =>
        !(stateOf e3 d).compromised &&
          decide ((0.7 : ℚ) < riskOf e3.graph d))).length ≤
        max 1 ((nodeNames e3.graph).filter
          (fun d => decide ((0.7 : ℚ) < riskOf e3.graph d))).length :=
      le_trans hle (le_max_right _ _)
    exact_mod_cast h1
  · intro hz
    rw [hres]
    have hnum : ((nodeNames e3.graph).filter (fun d =>
        !(stateOf e3 d).compromised &&
          decide ((0.7 : ℚ) < riskOf e3.graph d))).length = 0 := by
      omega
    rw [hnum, hz]
    simp
  · intro hnz
    rw [hres]
    congr 2
    omega

/-- C1, amended: after every completed `simulate` run, the resilience
score lies in [0,1]; when the network contains at least one device with
risk score above 0.7 it equals (count of uncompromised such devices) /
(count of all such devices); but when NO device has risk score above 0.7
it equals 0.0, not 1.0 (the source computes `0 / max(1, 0)`). -/
theorem C1_amended (e : Engine) (sc : Scenario) (rng : ℕ → ℚ) (now : ℚ)
    (h : (simulate_attack e sc rng now).isOk = true) :
    (0 ≤ ((simulate_attack e sc rng now).resultD
        default_result).network_resilience_score ∧
      ((simulate_attack e sc rng now).resultD
        default_result).network_resilience_score ≤ 1) ∧
    (((nodeNames e.graph).filter
        (fun d => decide ((0.7 : ℚ) < riskOf e.graph d))).length = 0 →
      ((simulate_attack e sc rng now).resultD
        default_result).network_resilience_score = 0) ∧
    (((nodeNames e.graph).filter
        (fun d => decide ((0.7 : ℚ) < riskOf e.graph d))).length ≠ 0 →
      ((simulate_attack e sc rng now).resultD
        default_result).network_resilience_score =
        (((nodeNames e.graph).filter (fun d =>
          !(stateOf ((simulate_attack e sc rng now).state) d).compromised &&
            decide ((0.7 : ℚ) < riskOf e.graph d))).length : ℚ) /
        (((nodeNames e.graph).filter
          (fun d => decide ((0.7 : ℚ) < riskOf e.graph d))).length : ℚ)) := by
  cases hres : simulate_attack e sc rng now with
  | err e3 er => rw [hres] at h; simp [Res.isOk] at h
  | ok e3 r =>
    obtain ⟨steps, hr, hg, _⟩ := simulate_attack_ok_shape hres
    have hnames : nodeNames e.graph = nodeNames e3.graph := graphCoreEq_names hg
    have hfilter1 : (nodeNames e.graph).filter
        (fun d => decide ((0.7 : ℚ) < riskOf e.graph d)) =
        (nodeNames e3.graph).filter
          (fun d => decide ((0.7 : ℚ) < riskOf e3.graph d)) := by
      rw [hnames]
      refine List.filter_congr ?_
      intro d hd
      rw [graphCoreEq_riskOf hg d]
    have hfilter2 : (nodeNames e.graph).filter (fun d =>
        !(stateOf e3 d).compromised &&
          decide ((0.7 : ℚ) < riskOf e.graph d)) =
        (nodeNames e3.graph).filter (fun d =>
          !(stateOf e3 d).compromised &&
            decide ((0.7 : ℚ) < riskOf e3.graph d)) := by
      rw [hnames]
      refine List.filter_congr ?_
      intro d hd
      rw [graphCoreEq_riskOf hg d]
    obtain ⟨hb, hz, hnz⟩ := calculate_results_resilience e3 sc steps now
    have hrr : (Res.ok e3 r).resultD default_result = r := rfl
    have hst : (Res.ok e3 r).state = e3 := rfl
    rw [hrr, hst, hr]
    refine ⟨hb, ?_, ?_⟩
    · intro hlen
      rw [hfilter1] at hlen
      exact hz hlen
    · intro hlen
      rw [hfilter1] at hlen
      rw [hfilter1, hfilter2]
      exact hnz hlen

/-- C1, witness: the amended statement applied to the completed run of
`eng_low` (no high-risk device: resilience 0) with entry `[A]`. -/
theorem C1_amended_witness :
    (simulate_attack eng_low sc_a (fun _ => 0.5) 0).isOk = true ∧
    ((0 ≤ ((simulate_attack eng_low sc_a (fun _ => 0.5) 0).resultD
        default_result).network_resilience_score ∧
      ((simulate_attack eng_low sc_a (fun _ => 0.5) 0).resultD
        default_result).network_resilience_score ≤ 1) ∧
    (((nodeNames eng_low.graph).filter
        (fun d => decide ((0.7 : ℚ) < riskOf eng_low.graph d))).length = 0 →
      ((simulate_attack eng_low sc_a (fun _ => 0.5) 0).resultD
        default_result).network_resilience_score = 0) ∧
    (((nodeNames eng_low.graph).filter
        (fun d => decide ((0.7 : ℚ) < riskOf eng_low.graph d))).length ≠ 0 →
      ((simulate_attack eng_low sc_a (fun _ => 0.5) 0).resultD
        default_result).network_resilience_score =
        (((nodeNames eng_low.graph).filter (fun d =>
          !(stateOf ((simulate_attack eng_low sc_a (fun _ => 0.5) 0).state)
              d).compromised &&
            decide ((0.7 : ℚ) < riskOf eng_low.graph d))).length : ℚ) /
        (((nodeNames eng_low.graph).filter
          (fun d => decide ((0.7 : ℚ) < riskOf eng_low.graph d))).length
            : ℚ))) :=
  ⟨by with_unfolding_all decide,
    C1_amended eng_low sc_a (fun _ => 0.5) 0 (by with_unfolding_all decide)⟩

/-- C8: after every completed run, every entry of the returned
`attack_path` has a non-negative compromise time, and `attack_path` is
exactly the compromise timeline stably sorted by time: it is a
permutation of the timeline, pairwise non-decreasing in time, and for
every time value the equal-time entries appear in their original
insertion (discovery) order. -/
theorem C8_attack_path (e : Engine) (sc : Scenario) (rng : ℕ → ℚ) (now : ℚ)
    (h : (simulate_attack e sc rng now).isOk = true) :
    (∀ te ∈ ((simulate_attack e sc rng now).resultD
        default_result).attack_path, 0 ≤ te.time) ∧
    ((simulate_attack e sc rng now).resultD
      default_result).attack_path.Pairwise (fun a b => a.time ≤ b.time) ∧
    ((simulate_attack e sc rng now).resultD default_result).attack_path =
      sort_by_time ((simulate_attack e sc rng now).resultD
        default_result).compromise_timeline ∧
    ((simulate_attack e sc rng now).resultD
      default_result).attack_path.Perm
      (((simulate_attack e sc rng now).resultD
        default_result).compromise_timeline) ∧
    (∀ t : ℚ, ((simulate_attack e sc rng now).resultD
        default_result).attack_path.filter (fun te => decide (te.time = t)) =
      ((simulate_attack e sc rng now).resultD
        default_result).compromise_timeline.filter
          (fun te => decide (te.time = t))) := by
  cases hres : simulate_attack e sc rng now with
  | err e3 er => rw [hres] at h; simp [Res.isOk] at h
  | ok e3 r =>
    obtain ⟨steps, hr, _, htl⟩ := simulate_attack_ok_shape hres
    have hrr : (Res.ok e3 r).resultD default_result = r := rfl
    rw [hrr, hr]
    have hpath : (calculate_results e3 sc steps now).attack_path =
        sort_by_time e3.attack_timeline := rfl
    have htimeline : (calculate_results e3 sc steps now).compromise_timeline =
        e3.attack_timeline := rfl
    rw [hpath, htimeline]
    refine ⟨?_, sort_by_time_pairwise _, rfl, sort_by_time_perm _, ?_⟩
    · intro te hte
      exact htl te ((sort_by_time_perm _).mem_iff.mp hte)
    · intro t
      exact filter_sort_by_time _ t

/-- C8, witness: the statement applied to the completed run of `eng_ab`
with entry `[A]` and all draws 0. -/
theorem C8_attack_path_witness :
    (simulate_attack eng_ab sc_a (fun _ => 0) 0).isOk = true ∧
    ((∀ te ∈ ((simulate_attack eng_ab sc_a (fun _ => 0) 0).resultD
        default_result).attack_path, 0 ≤ te.time) ∧
    ((simulate_attack eng_ab sc_a (fun _ => 0) 0).resultD
      default_result).attack_path.Pairwise (fun a b => a.time ≤ b.time) ∧
    ((simulate_attack eng_ab sc_a (fun _ => 0) 0).resultD
      default_result).attack_path =
      sort_by_time ((simulate_attack eng_ab sc_a (fun _ => 0) 0).resultD
        default_result).compromise_timeline ∧
    ((simulate_attack eng_ab sc_a (fun _ => 0) 0).resultD
      default_result).attack_path.Perm
      (((simulate_attack eng_ab sc_a (fun _ => 0) 0).resultD
        default_result).compromise_timeline) ∧
    (∀ t : ℚ, ((simulate_attack eng_ab sc_a (fun _ => 0) 0).resultD
        default_result).attack_path.filter
          (fun te => decide (te.time = t)) =
      ((simulate_attack eng_ab sc_a (fun _ => 0) 0).resultD
        default_result).compromise_timeline.filter
          (fun te => decide (te.time = t)))) :=
  ⟨by with_unfolding_all decide,
    C8_attack_path eng_ab sc_a (fun _ => 0) 0 (by with_unfolding_all decide)⟩

theorem lookupA_none_of_not_mem {α : Type} {l : List (String × α)}
    {k : String} (h : k ∉ l.map Prod.fst) : lookupA l k = none := by
  cases hl : lookupA l k with
  | none => rfl
  | some v =>
    exact absurd (List.mem_map.mpr ⟨(k, v), lookupA_some_mem hl, rfl⟩) h

theorem lookup_compromised_updA {l : List (String × DeviceState)}
    {d x : String} (f : DeviceState → DeviceState)
    (hf : ∀ st, (f st).compromised = true)
    (hx : ((lookupA l x).map DeviceState.compromised).getD false = true) :
    ((lookupA (updA l d f) x).map DeviceState.compromised).getD false
      = true := by
  by_cases hxd : x = d
  · subst hxd
    cases hl : lookupA l x with
    | none => rw [hl] at hx; simp at hx
    | some st => simp [lookupA_updA_self f hl, hf]
  · rw [lookupA_updA_other _ _ _ _ hxd]
    exact hx

theorem compromise_device_err_mono {e : Engine} {d : String} {t : ℚ}
    {av : String} {e2 : Engine} {er : PyErr}
    (h : compromise_device e d t av = .err e2 er) (x : String)
    (hx : deviceCompromised e x = true) : deviceCompromised e2 x = true := by
  cases hl : lookupA e.device_states d with
  | none =>
    simp only [compromise_device, hl, Res.err.injEq] at h
    rw [← h.1]
    exact hx
  | some st =>
    cases hn : getNode e.graph d with
    | none =>
      simp only [compromise_device, hl, hn, Res.err.injEq] at h
      rw [← h.1]
      exact lookup_compromised_updA _ (fun st => rfl) hx
    | some nd =>
      cases hr : nd.risk_score with
      | none =>
        simp only [compromise_device, hl, hn, hr, Res.err.injEq] at h
        rw [← h.1]
        exact lookup_compromised_updA _ (fun st => rfl) hx
      | some r =>
        simp only [compromise_device, hl, hn, hr] at h
        exact Res.noConfusion h

theorem compromise_entries_err_mono :
    ∀ (ds : List String) (e e2 : Engine) (er : PyErr),
      compromise_entries e ds = .err e2 er →
      ∀ x, deviceCompromised e x = true → deviceCompromised e2 x = true := by
  intro ds
  induction ds with
  | nil =>
    intro e e2 er h
    simp [compromise_entries] at h
  | cons d rest ih =>
    intro e e2 er h x hx
    cases hcmp : compromise_device e d 0 "Initial Attack" with
    | err e3 er2 =>
      simp only [compromise_entries, hcmp, Res.err.injEq] at h
      rw [← h.1]
      exact compromise_device_err_mono hcmp x hx
    | ok ec u =>
      simp only [compromise_entries, hcmp] at h
      exact ih ec e2 er h x (compromise_device_mono hcmp x hx)

theorem compromise_entries_err_at_ghost :
    ∀ (pre : List String) (post : List String) (g : String) (e : Engine),
      EngineWF e → (∀ d ∈ pre, d ∈ nodeNames e.graph) →
      g ∉ nodeNames e.graph →
      ∃ e2, compromise_entries e (pre ++ g :: post) = .err e2 (.keyError g) ∧
        ∀ d ∈ pre, deviceCompromised e2 d = true := by
  intro pre
  induction pre with
  | nil =>
    intro post g e hwf hpre hg
    have hnone : lookupA e.device_states g = none := by
      refine lookupA_none_of_not_mem ?_
      rw [hwf.2.1]
      exact hg
    refine ⟨e, ?_, by simp⟩
    simp only [List.nil_append, compromise_entries, compromise_device, hnone]
  | cons d pre ih =>
    intro post g e hwf hpre hg
    obtain ⟨ec, hcmp⟩ := compromise_device_ok 0 "Initial Attack" hwf
      (hpre d (List.mem_cons_self _ _))
    obtain ⟨hg_c, hs_c, _, _, hcompd_c, _, _⟩ := compromise_device_ok_facts hcmp
    have hwfc := engineWF_transfer hwf hg_c hs_c
    have hnames := graphCoreEq_names hg_c
    obtain ⟨e2, h2, hpre2⟩ := ih post g ec hwfc
      (fun x hx => hnames ▸ hpre x (List.mem_cons_of_mem _ hx))
      (fun hmem => hg (hnames ▸ hmem))
    refine ⟨e2, ?_, ?_⟩
    · show compromise_entries e ((d :: pre) ++ g :: post) =
        Res.err e2 (.keyError g)
      rw [List.cons_append]
      simp only [compromise_entries, hcmp, h2]
    · intro x hx
      rcases List.mem_cons.mp hx with hx | hx
      · subst hx
        exact compromise_entries_err_mono _ _ _ _ h2 x hcompd_c
      · exact hpre2 x hx

/-- C2, amended: the source never raises `InvalidScenarioError` (no such
validation exists).  A scenario with an EMPTY entry-point list silently
completes and returns a results record with zero affected devices; a
scenario containing an entry point absent from the network raises
`KeyError` naming the first absent device, and it does so only AFTER the
state has been reset and every earlier entry point has already been
compromised (the engine is left mutated, not in its pre-call state). -/
theorem C2_amended (e : Engine) (rng : ℕ → ℚ) (now : ℚ) (desc : String)
    (pre post : List String) (g : String) (hwf : EngineWF e)
    (hpre : ∀ d ∈ pre, d ∈ nodeNames e.graph)
    (hg : g ∉ nodeNames e.graph) :
    (∃ e3 r, simulate_attack e ⟨[], desc⟩ rng now = .ok e3 r ∧
      r.affected_devices = 0) ∧
    (∃ e4, simulate_attack e ⟨pre ++ g :: post, desc⟩ rng now =
        .err e4 (.keyError g) ∧
      ∀ d ∈ pre, deviceCompromised e4 d = true) := by
  obtain ⟨e1, hreset, hwf1, hgc1, htl1, hdc1, hq1⟩ :=
    reset_simulation_ok hwf.1 hwf.2.2.1 hwf.2.2.2
  constructor
  · refine ⟨e1, calculate_results e1 ⟨[], desc⟩ [] now, ?_, ?_⟩
    · simp only [simulate_attack, hreset, compromise_entries,
        List.map_nil, propagation_loop]
    · show (e1.device_states.filter (fun p => p.2.compromised)).length = 0
      have : e1.device_states.filter (fun p => p.2.compromised) = [] := by
        rw [List.filter_eq_nil_iff]
        intro p hp
        simp [hq1 p hp]
      rw [this]
      rfl
  · have hnames := graphCoreEq_names hgc1
    obtain ⟨e4, hent, hpre4⟩ := compromise_entries_err_at_ghost pre post g e1
      hwf1 (fun d hd => hnames ▸ hpre d hd) (fun hmem => hg (hnames ▸ hmem))
    refine ⟨e4, ?_, hpre4⟩
    simp only [simulate_attack, hreset, hent]

/-- C2, witness: the amended statement applied to `eng_ab` with the empty
scenario and the scenario `[A, Ghost]` whose second entry is absent. -/
theorem C2_amended_witness :
    EngineWF eng_ab ∧ (∀ d ∈ ["A"], d ∈ nodeNames eng_ab.graph) ∧
    "Ghost" ∉ nodeNames eng_ab.graph ∧
    ((∃ e3 r, simulate_attack eng_ab ⟨[], "bad scenario"⟩ (fun _ => 0.5) 0 =
        .ok e3 r ∧ r.affected_devices = 0) ∧
    (∃ e4, simulate_attack eng_ab ⟨["A"] ++ "Ghost" :: [], "bad scenario"⟩
        (fun _ => 0.5) 0 = .err e4 (.keyError "Ghost") ∧
      ∀ d ∈ ["A"], deviceCompromised e4 d = true)) :=
  ⟨by unfold EngineWF; with_unfolding_all decide,
    by with_unfolding_all decide,
    by with_unfolding_all decide,
    C2_amended eng_ab (fun _ => 0.5) 0 "bad scenario" ["A"] [] "Ghost"
      (by unfold EngineWF; with_unfolding_all decide)
      (by with_unfolding_all decide)
      (by with_unfolding_all decide)⟩

theorem sum_map_le_of_nodup_subset (sub m : List String) (w : String → ℕ)
    (hnd : sub.Nodup) (hsub : sub ⊆ m) :
    (sub.map w).sum ≤ (m.map w).sum := by
  obtain ⟨l2, hperm, hsublist⟩ := hnd.subperm hsub
  have h1 : (l2.map w).sum = (sub.map w).sum := (hperm.map w).sum_eq
  rw [← h1]
  exact (hsublist.map w).sum_le_sum (fun a _ => Nat.zero_le a)

theorem sum_filter_split (l : List String) (P Q : String → Bool)
    (w : String → ℕ) :
    ((l.filter P).map w).sum =
      ((l.filter (fun x => P x && Q x)).map w).sum +
      ((l.filter (fun x => P x && !Q x)).map w).sum := by
  induction l with
  | nil => simp
  | cons a rest ih =>
    by_cases hP : P a
    · by_cases hQ : Q a <;> simp [List.filter_cons, hP, hQ, ih] <;> omega
    · simp [List.filter_cons, hP, ih]

theorem potential_step (names : List String) (w : String → ℕ)
    (sub : List String) (P1 P2 : String → Bool)
    (hndn : names.Nodup) (hnds : sub.Nodup)
    (hsub : ∀ x ∈ sub, x ∈ names ∧ P1 x = true ∧ P2 x = false)
    (himp : ∀ x, P2 x = true → P1 x = true) :
    (sub.map w).sum + ((names.filter P2).map w).sum ≤
      ((names.filter P1).map w).sum := by
  have hsplit := sum_filter_split names P1 P2 w
  have heq : names.filter (fun x => P1 x && P2 x) = names.filter P2 := by
    refine List.filter_congr ?_
    intro x hx
    cases h2 : P2 x
    · simp
    · simp [himp x h2]
  have hsub2 : (sub.map w).sum ≤
      ((names.filter (fun x => P1 x && !P2 x)).map w).sum := by
    refine sum_map_le_of_nodup_subset sub _ w hnds ?_
    intro x hx
    refine List.mem_filter.mpr ⟨(hsub x hx).1, ?_⟩
    simp [(hsub x hx).2.1, (hsub x hx).2.2]
  rw [heq] at hsplit
  omega

theorem filterMap_if_length {es : List (String × String × ℚ)} {d : String} :
    (es.filterMap (fun e => if e.1 = d then some e.2.1 else none)).length =
      es.countP (fun ed => decide (ed.1 = d)) := by
  induction es with
  | nil => rfl
  | cons ed rest ih =>
    by_cases h : ed.1 = d <;>
      simp [List.filterMap_cons, List.countP_cons, h, ih]

theorem sum_map_add (l : List String) (f g2 : String → ℕ) :
    (l.map (fun d => f d + g2 d)).sum = (l.map f).sum + (l.map g2).sum := by
  induction l with
  | nil => rfl
  | cons a rest ih =>
    simp [ih]
    omega

theorem sum_indicator_one (names : List String) (a : String)
    (hnd : names.Nodup) (ha : a ∈ names) :
    (names.map (fun d => if a = d then 1 else 0)).sum = 1 := by
  induction names with
  | nil => simp at ha
  | cons n rest ih =>
    rw [List.nodup_cons] at hnd
    by_cases h : a = n
    · subst h
      have hnot : ∀ d ∈ rest, ¬(a = d) := fun d hd he => hnd.1 (he ▸ hd)
      have hz : (rest.map (fun d => if a = d then 1 else 0)).sum = 0 := by
        rw [List.sum_eq_zero]
        intro x hx
        rcases List.mem_map.mp hx with ⟨d, hd, hde⟩
        rw [← hde]
        simp [hnot d hd]
      simp [hz]
    · rcases List.mem_cons.mp ha with ha2 | ha2
      · exact absurd ha2 h
      · simp [h, ih hnd.2 ha2]

theorem sum_countP_edges :
    ∀ (es : List (String × String × ℚ)) (names : List String),
      names.Nodup → (∀ ed ∈ es, ed.1 ∈ names) →
      (names.map (fun d => es.countP (fun ed => decide (ed.1 = d)))).sum =
        es.length := by
  intro es
  induction es with
  | nil =>
    intro names _ _
    simp
  | cons ed rest ih =>
    intro names hnd hall
    have hpt : ∀ d, (ed :: rest).countP (fun e2 => decide (e2.1 = d)) =
        rest.countP (fun e2 => decide (e2.1 = d)) +
          (if ed.1 = d then 1 else 0) := by
      intro d
      rw [List.countP_cons]
      by_cases h : ed.1 = d <;> simp [h]
    have hmc : names.map (fun d =>
        (ed :: rest).countP (fun e2 => decide (e2.1 = d))) =
        names.map (fun d => rest.countP (fun e2 => decide (e2.1 = d)) +
          (if ed.1 = d then 1 else 0)) :=
      List.map_congr_left (fun d _ => hpt d)
    rw [hmc, sum_map_add, ih names hnd
      (fun e2 he2 => hall e2 (List.mem_cons_of_mem _ he2)),
      sum_indicator_one names ed.1 hnd (hall ed (List.mem_cons_self _ _))]
    simp

theorem sumOutDeg_names_eq_edges (g : DiGraph)
    (hnd : (nodeNames g).Nodup)
    (he : ∀ ed ∈ g.edges, ed.1 ∈ nodeNames g) :
    sumOutDeg g (nodeNames g) = g.edges.length := by
  unfold sumOutDeg
  have hme : (nodeNames g).map (outDeg g) = (nodeNames g).map
      (fun d => g.edges.countP (fun ed => decide (ed.1 = d))) :=
    List.map_congr_left (fun d _ => by
      unfold outDeg successors
      exact filterMap_if_length)
  rw [hme]
  exact sum_countP_edges g.edges (nodeNames g) hnd he

theorem outDeg_eq_of_edges_eq {g g2 : DiGraph} (h : g.edges = g2.edges)
    (d : String) : outDeg g d = outDeg g2 d := by
  unfold outDeg successors
  rw [h]

theorem sumOutDeg_eq_of_edges_eq {g g2 : DiGraph} (h : g.edges = g2.edges)
    (l : List String) : sumOutDeg g l = sumOutDeg g2 l := by
  unfold sumOutDeg
  rw [List.map_congr_left (fun d _ => outDeg_eq_of_edges_eq h d)]

theorem sumOutDeg_append (g : DiGraph) (l1 l2 : List String) :
    sumOutDeg g (l1 ++ l2) = sumOutDeg g l1 + sumOutDeg g l2 := by
  unfold sumOutDeg
  rw [List.map_append, List.sum_append]

theorem propagation_loop_c_agrees (rng : ℕ → ℚ) :
    ∀ (fuel : ℕ) (e : Engine) (queue : List (String × ℚ))
      (steps : List PropStep) (rix : ℕ) (cnt : ℕ) (e2 : Engine)
      (s2 : List PropStep),
      propagation_loop rng fuel e queue steps rix = .ok e2 (some s2) →
      ∃ c2, propagation_loop_c rng fuel e queue steps rix cnt =
        .ok e2 (some (s2, c2)) := by
  intro fuel
  induction fuel with
  | zero =>
    intro e queue steps rix cnt e2 s2 h
    cases queue with
    | nil =>
      simp only [propagation_loop, Res.ok.injEq, Option.some.injEq] at h
      rw [← h.1, ← h.2]
      exact ⟨cnt, rfl⟩
    | cons q rest =>
      obtain ⟨cd, ct⟩ := q
      simp only [propagation_loop, Res.ok.injEq] at h
      exact absurd h.2 (by simp)
  | succ fuel ih =>
    intro e queue steps rix cnt e2 s2 h
    cases queue with
    | nil =>
      simp only [propagation_loop, Res.ok.injEq, Option.some.injEq] at h
      rw [← h.1, ← h.2]
      exact ⟨cnt, rfl⟩
    | cons q rest =>
      obtain ⟨cd, ct⟩ := q
      cases han : attempt_neighbors rng cd ct e
          (successors e.graph cd) rest steps rix with
      | err e3 er =>
        simp only [propagation_loop, han] at h
        exact absurd h (by simp)
      | ok ea out =>
        obtain ⟨q2, steps2, rix2⟩ := out
        simp only [propagation_loop, han] at h
        obtain ⟨c2, hc2⟩ := ih ea q2 steps2 rix2
          (cnt + (successors e.graph cd).length) e2 s2 h
        refine ⟨c2, ?_⟩
        simp only [propagation_loop_c, han, hc2]

theorem propagation_loop_c_bound (rng : ℕ → ℚ) :
    ∀ (fuel : ℕ) (e : Engine) (queue : List (String × ℚ))
      (steps : List PropStep) (rix : ℕ) (cnt : ℕ) (e4 : Engine)
      (steps2 : List PropStep) (cnt2 : ℕ),
      propagation_loop_c rng fuel e queue steps rix cnt =
        .ok e4 (some (steps2, cnt2)) →
      EngineWF e →
      (queue.map Prod.fst).Nodup →
      (∀ p ∈ queue, deviceCompromised e p.1 = true) →
      cnt2 ≤ cnt + sumOutDeg e.graph (queue.map Prod.fst) +
        sumOutDeg e.graph (uncompNames e) := by
  intro fuel
  induction fuel with
  | zero =>
    intro e queue steps rix cnt e4 steps2 cnt2 h hwf hqnd hqc
    cases queue with
    | nil =>
      simp only [propagation_loop_c, Res.ok.injEq, Option.some.injEq,
        Prod.mk.injEq] at h
      omega
    | cons q rest =>
      obtain ⟨cd, ct⟩ := q
      simp only [propagation_loop_c, Res.ok.injEq] at h
      exact absurd h.2 (by simp)
  | succ fuel ih =>
    intro e queue steps rix cnt e4 steps2 cnt2 h hwf hqnd hqc
    cases queue with
    | nil =>
      simp only [propagation_loop_c, Res.ok.injEq, Option.some.injEq,
        Prod.mk.injEq] at h
      omega
    | cons q rest =>
      obtain ⟨cd, ct⟩ := q
      cases han : attempt_neighbors rng cd ct e
          (successors e.graph cd) rest steps rix with
      | err e3 er =>
        simp only [propagation_loop_c, han] at h
        exact absurd h (by simp)
      | ok ea out =>
        obtain ⟨q2, s2x, rix2⟩ := out
        simp only [propagation_loop_c, han] at h
        obtain ⟨hg_a, hs_a, _, _, ⟨qtla, hqa, _, hqacomp, hqand⟩, hmono⟩ :=
          attempt_neighbors_ok_facts rng cd ct (successors e.graph cd)
            e rest steps rix ea (q2, s2x, rix2) han
        have hqa2 : q2 = rest ++ qtla := hqa
        have hwfa := engineWF_transfer hwf hg_a hs_a
        have hnames : nodeNames e.graph = nodeNames ea.graph :=
          graphCoreEq_names hg_a
        have hedges : e.graph.edges = ea.graph.edges := hg_a.2
        have hrestnd : (rest.map Prod.fst).Nodup := by
          rw [List.map_cons, List.nodup_cons] at hqnd
          exact hqnd.2
        have hq2nd : (q2.map Prod.fst).Nodup := by
          rw [hqa2, List.map_append, List.nodup_append]
          refine ⟨hrestnd, hqand, ?_⟩
          intro x hx1 hx2
          rcases List.mem_map.mp hx1 with ⟨p, hp, hpe⟩
          rcases List.mem_map.mp hx2 with ⟨p2, hp2, hpe2⟩
          have h1 : deviceCompromised e x = true := by
            rw [← hpe]
            exact hqc p (List.mem_cons_of_mem _ hp)
          have h2 : deviceCompromised e x = false := by
            rw [← hpe2]
            exact (hqacomp p2 hp2).2
          rw [h1] at h2
          exact Bool.noConfusion h2
        have hq2c : ∀ p ∈ q2, deviceCompromised ea p.1 = true := by
          intro p hp
          rw [hqa2] at hp
          rcases List.mem_append.mp hp with hp | hp
          · exact hmono p.1 (hqc p (List.mem_cons_of_mem _ hp))
          · exact (hqacomp p hp).1
        have hb := ih ea q2 s2x rix2
          (cnt + (successors e.graph cd).length) e4 steps2 cnt2 h
          hwfa hq2nd hq2c
        have hsum_q2 : sumOutDeg ea.graph (q2.map Prod.fst) =
            sumOutDeg e.graph (rest.map Prod.fst) +
              sumOutDeg e.graph (qtla.map Prod.fst) := by
          rw [← sumOutDeg_eq_of_edges_eq hedges, hqa2, List.map_append,
            sumOutDeg_append]
        have hpot : sumOutDeg e.graph (qtla.map Prod.fst) +
            sumOutDeg ea.graph (uncompNames ea) ≤
            sumOutDeg e.graph (uncompNames e) := by
          rw [← sumOutDeg_eq_of_edges_eq hedges (uncompNames ea)]
          show sumOutDeg e.graph (qtla.map Prod.fst) +
            sumOutDeg e.graph (uncompNames ea) ≤
            sumOutDeg e.graph (uncompNames e)
          unfold sumOutDeg uncompNames
          rw [← hnames]
          refine potential_step (nodeNames e.graph) (outDeg e.graph)
            (qtla.map Prod.fst) (fun d => !(deviceCompromised e d))
            (fun d => !(deviceCompromised ea d)) hwf.1 hqand ?_ ?_
          · intro x hx
            rcases List.mem_map.mp hx with ⟨p, hp, hpe⟩
            subst hpe
            refine ⟨?_, ?_, ?_⟩
            · have hmem := deviceCompromised_mem_fst (hqacomp p hp).1
              rw [hs_a, hwf.2.1] at hmem
              exact hmem
            · simp [(hqacomp p hp).2]
            · simp [(hqacomp p hp).1]
          · intro x hx
            simp only [Bool.not_eq_true'] at hx ⊢
            cases hc : deviceCompromised e x with
            | false => rfl
            | true =>
              rw [hmono x hc] at hx
              exact Bool.noConfusion hx
        have hcd : sumOutDeg e.graph (((cd, ct) :: rest).map Prod.fst) =
            (successors e.graph cd).length +
              sumOutDeg e.graph (rest.map Prod.fst) := by
          show sumOutDeg e.graph (cd :: rest.map Prod.fst) = _
          unfold sumOutDeg outDeg
          simp
        rw [hcd]
        omega

/-- C7: for every well-formed network and valid scenario (non-empty,
duplicate-free entry points naming existing devices), a `simulate` call
cannot fail once begun: it always returns a results record.  The work
queue empties after finitely many steps: the propagation loop returns
`some` with the fuel `simulate_attack` passes, and its instrumented twin
certifies that the total number of neighbour examinations (edge attempts)
is at most `|edges|` — the device count times the average out-degree. -/
theorem C7_total_and_bounded (e : Engine) (sc : Scenario) (rng : ℕ → ℚ)
    (now : ℚ) (hwf : EngineWF e) (hval : ValidScenario e sc) :
    (∃ e3 r, simulate_attack e sc rng now = .ok e3 r) ∧
    (∀ e1 e2 u1 u2, reset_simulation e = .ok e1 u1 →
      compromise_entries e1 sc.attack_entry = .ok e2 u2 →
      ∃ e4 steps cnt,
        propagation_loop_c rng
          (sc.attack_entry.length + e2.device_states.length) e2
          (sc.attack_entry.map (fun d => (d, (0 : ℚ)))) [] 0 0 =
          .ok e4 (some (steps, cnt)) ∧
        propagation_loop rng
          (sc.attack_entry.length + e2.device_states.length) e2
          (sc.attack_entry.map (fun d => (d, (0 : ℚ)))) [] 0 =
          .ok e4 (some steps) ∧
        cnt ≤ e.graph.edges.length) := by
  obtain ⟨e1, hreset, hwf1, hgc1, _, _, _⟩ :=
    reset_simulation_ok hwf.1 hwf.2.2.1 hwf.2.2.2
  have hnames1 := graphCoreEq_names hgc1
  obtain ⟨e2, hent⟩ := compromise_entries_ok_exists sc.attack_entry e1 hwf1
    (fun d hd => hnames1 ▸ hval.2.2 d hd)
  obtain ⟨hgc2, hkeys2, _, hcomp2, _⟩ :=
    compromise_entries_ok_facts _ _ _ _ hent
  have hwf2 := engineWF_transfer hwf1 hgc2 hkeys2
  have hnames2 := graphCoreEq_names hgc2
  have hqnames : (sc.attack_entry.map (fun d => (d, (0 : ℚ)))).map Prod.fst =
      sc.attack_entry := by
    rw [List.map_map]
    exact List.map_id'' (fun d => rfl) sc.attack_entry
  obtain ⟨e4, osteps, hloop⟩ := propagation_loop_ok_exists rng
    (sc.attack_entry.length + e2.device_states.length) e2
    (sc.attack_entry.map (fun d => (d, (0 : ℚ)))) [] 0 hwf2
    (by
      intro p hp
      rcases List.mem_map.mp hp with ⟨d, hd, hde⟩
      rw [← hde]
      exact hnames2 ▸ hnames1 ▸ hval.2.2 d hd)
  obtain ⟨steps, hsteps⟩ := propagation_loop_terminates rng _ _ _ _ _ _ _
    hloop
    (by
      rw [List.length_map]
      have : List.countP (fun p => !(p.2.compromised : Bool))
          e2.device_states ≤ e2.device_states.length :=
        List.countP_le_length _
      unfold uncompromisedCount
      omega)
  subst hsteps
  constructor
  · refine ⟨e4, calculate_results e4 sc steps now, ?_⟩
    simp only [simulate_attack, hreset, hent, hloop]
  · intro e1x e2x u1 u2 h1 h2
    rw [hreset] at h1
    simp only [Res.ok.injEq] at h1
    rw [← h1.1] at h2
    rw [hent] at h2
    simp only [Res.ok.injEq] at h2
    rw [← h2.1]
    obtain ⟨c2, hc2⟩ := propagation_loop_c_agrees rng _ _ _ _ _ 0 _ _ hloop
    refine ⟨e4, steps, c2, hc2, hloop, ?_⟩
    have hbound := propagation_loop_c_bound rng _ _ _ _ _ _ _ _ _ hc2 hwf2
      (by rw [hqnames]; exact hval.2.1)
      (by
        intro p hp
        rcases List.mem_map.mp hp with ⟨d, hd, hde⟩
        rw [← hde]
        exact hcomp2 d hd)
    rw [hqnames] at hbound
    have hpot : sumOutDeg e2.graph sc.attack_entry +
        sumOutDeg e2.graph (uncompNames e2) ≤
        sumOutDeg e2.graph (nodeNames e2.graph) := by
      have hps := potential_step (nodeNames e2.graph) (outDeg e2.graph)
        sc.attack_entry (fun _ => true)
        (fun d => !(deviceCompromised e2 d)) hwf2.1 hval.2.1
        (by
          intro x hx
          refine ⟨hnames2 ▸ hnames1 ▸ hval.2.2 x hx, rfl, ?_⟩
          simp [hcomp2 x hx])
        (fun x _ => rfl)
      unfold sumOutDeg uncompNames
      rw [List.filter_true] at hps
      exact hps
    have hedges : sumOutDeg e2.graph (nodeNames e2.graph) =
        e2.graph.edges.length :=
      sumOutDeg_names_eq_edges e2.graph hwf2.1
        (fun ed hed => (hwf2.2.2.2 ed hed).1)
    have hlen : e2.graph.edges.length = e.graph.edges.length := by
      rw [← hgc2.2, ← hgc1.2]
    omega

/-- C7, witness: the totality-and-bound statement applied to `eng_ab`
with scenario `[A]`. -/
theorem C7_total_and_bounded_witness :
    EngineWF eng_ab ∧ ValidScenario eng_ab sc_a ∧
    ((∃ e3 r, simulate_attack eng_ab sc_a (fun _ => 0.5) 0 = .ok e3 r) ∧
    (∀ e1 e2 u1 u2, reset_simulation eng_ab = .ok e1 u1 →
      compromise_entries e1 sc_a.attack_entry = .ok e2 u2 →
      ∃ e4 steps cnt,
        propagation_loop_c (fun _ => 0.5)
          (sc_a.attack_entry.length + e2.device_states.length) e2
          (sc_a.attack_entry.map (fun d => (d, (0 : ℚ)))) [] 0 0 =
          .ok e4 (some (steps, cnt)) ∧
        propagation_loop (fun _ => 0.5)
          (sc_a.attack_entry.length + e2.device_states.length) e2
          (sc_a.attack_entry.map (fun d => (d, (0 : ℚ)))) [] 0 =
          .ok e4 (some steps) ∧
        cnt ≤ eng_ab.graph.edges.length)) :=
  ⟨by unfold EngineWF; with_unfolding_all decide,
    by unfold ValidScenario; with_unfolding_all decide,
    C7_total_and_bounded eng_ab sc_a (fun _ => 0.5) 0
      (by unfold EngineWF; with_unfolding_all decide)
      (by unfold ValidScenario; with_unfolding_all decide)⟩

theorem lookupA_append_left {α : Type} {l : List (String × α)} {d : String}
    {v : α} (l2 : List (String × α)) (h : lookupA l d = some v) :
    lookupA (l ++ l2) d = some v := by
  induction l with
  | nil => simp [lookupA] at h
  | cons p rest ih =>
    obtain ⟨a, b⟩ := p
    by_cases ha : a = d
    · subst ha
      simp [lookupA] at h ⊢
      exact h
    · simp [lookupA, ha] at h ⊢
      exact ih h

theorem lookupA_append_right {α : Type} {l : List (String × α)} {d : String}
    (l2 : List (String × α)) (h : lookupA l d = none) :
    lookupA (l ++ l2) d = lookupA l2 d := by
  induction l with
  | nil => simp
  | cons p rest ih =>
    obtain ⟨a, b⟩ := p
    by_cases ha : a = d
    · subst ha
      simp [lookupA] at h
    · simp [lookupA, ha] at h ⊢
      exact ih h

theorem getNode_add_node (g : DiGraph) (n : String) (r : ℚ) (d : String) :
    getNode (add_node g n r) d =
      if n = d then some ⟨some r, false, none, none⟩ else getNode g d := by
  unfold add_node getNode
  by_cases hp : (lookupA g.nodes n).isSome
  · rw [if_pos hp]
    obtain ⟨nd, hnd⟩ := Option.isSome_iff_exists.mp hp
    by_cases hnd2 : n = d
    · subst hnd2
      simp [lookupA_updA_self _ hnd]
    · simp only [if_neg hnd2]
      exact lookupA_updA_other _ _ _ _ (fun he => hnd2 he.symm)
  · rw [if_neg hp]
    by_cases hnd2 : n = d
    · subst hnd2
      have hnone : lookupA g.nodes n = none := by
        cases hl : lookupA g.nodes n with
        | none => rfl
        | some v => rw [hl] at hp; simp at hp
      simp only
      rw [lookupA_append_right _ hnone]
      simp [lookupA]
    · simp only [if_neg hnd2]
      cases hl : lookupA g.nodes d with
      | none =>
        rw [lookupA_append_right _ hl]
        simp [lookupA, hnd2]
      | some v => exact lookupA_append_left _ hl

theorem getNode_ensure_pres {g : DiGraph} {d : String} (n : String)
    (h : (getNode g d).isSome = true) :
    getNode (ensure_node g n) d = getNode g d := by
  unfold ensure_node
  by_cases hp : (getNode g n).isSome
  · rw [if_pos hp]
  · rw [if_neg hp]
    obtain ⟨v, hv⟩ := Option.isSome_iff_exists.mp h
    unfold getNode at hv ⊢
    rw [hv]
    exact lookupA_append_left _ hv

theorem getNode_ensure_self (g : DiGraph) (n : String) :
    (getNode (ensure_node g n) n).isSome = true := by
  unfold ensure_node
  by_cases hp : (getNode g n).isSome
  · rw [if_pos hp]
    exact hp
  · rw [if_neg hp]
    have hnone : lookupA g.nodes n = none := by
      cases hl : lookupA g.nodes n with
      | none => rfl
      | some v =>
        unfold getNode at hp
        rw [hl] at hp
        simp at hp
    unfold getNode
    simp only
    rw [lookupA_append_right _ hnone]
    simp [lookupA]

theorem getNode_add_edge_pres {g : DiGraph} {d : String} (u v : String)
    (w : ℚ) (h : (getNode g d).isSome = true) :
    getNode (add_edge g u v w) d = getNode g d := by
  unfold add_edge
  have h1 := getNode_ensure_pres u h
  have h1s : (getNode (ensure_node g u) d).isSome = true := by
    rw [h1]; exact h
  have h2 := getNode_ensure_pres v h1s
  have heq : getNode (ensure_node (ensure_node g u) v) d = getNode g d :=
    h2.trans h1
  by_cases he : (lookupEdge (ensure_node (ensure_node g u) v).edges u v).isSome
  · simp only [he, if_true]
    exact heq
  · simp only [he, if_false]
    exact heq

theorem getNode_add_edge_isSome_mono {g : DiGraph} {d : String}
    (u v : String) (w : ℚ) (h : (getNode g d).isSome = true) :
    (getNode (add_edge g u v w) d).isSome = true := by
  rw [getNode_add_edge_pres u v w h]
  exact h

theorem getNode_add_edge_endpoints (g : DiGraph) (u v : String) (w : ℚ) :
    (getNode (add_edge g u v w) u).isSome = true ∧
    (getNode (add_edge g u v w) v).isSome = true := by
  unfold add_edge
  have hu1 : (getNode (ensure_node g u) u).isSome = true :=
    getNode_ensure_self g u
  have hu2 : (getNode (ensure_node (ensure_node g u) v) u).isSome = true := by
    rw [getNode_ensure_pres v hu1]
    exact hu1
  have hv2 : (getNode (ensure_node (ensure_node g u) v) v).isSome = true :=
    getNode_ensure_self _ v
  by_cases he : (lookupEdge (ensure_node (ensure_node g u) v).edges u v).isSome
  · simp only [he, if_true]
    exact ⟨hu2, hv2⟩
  · simp only [he, if_false]
    exact ⟨hu2, hv2⟩

theorem lookupEdge_updEdge_pres {es : List (String × String × ℚ)}
    {a b : String} (u v : String) (w : ℚ)
    (h : (lookupEdge es a b).isSome = true) :
    (lookupEdge (updEdge es u v w) a b).isSome = true := by
  induction es with
  | nil => simp [lookupEdge] at h
  | cons ed rest ih =>
    obtain ⟨x, y, z⟩ := ed
    by_cases hxy : x = u ∧ y = v
    · unfold updEdge
      rw [if_pos hxy]
      by_cases hab : x = a ∧ y = b
      · unfold lookupEdge
        rw [if_pos hab]
        rfl
      · unfold lookupEdge at h ⊢
        rw [if_neg hab] at h
        rw [if_neg hab]
        exact h
    · unfold updEdge
      rw [if_neg hxy]
      unfold lookupEdge at h ⊢
      by_cases hab : x = a ∧ y = b
      · rw [if_pos hab]
        rfl
      · rw [if_neg hab] at h
        rw [if_neg hab]
        exact ih h

theorem lookupEdge_append_pres {es : List (String × String × ℚ)}
    {a b : String} (es2 : List (String × String × ℚ))
    (h : (lookupEdge es a b).isSome = true) :
    (lookupEdge (es ++ es2) a b).isSome = true := by
  induction es with
  | nil => simp [lookupEdge] at h
  | cons ed rest ih =>
    obtain ⟨x, y, z⟩ := ed
    rw [List.cons_append]
    unfold lookupEdge at h ⊢
    by_cases hab : x = a ∧ y = b
    · rw [if_pos hab]
      rfl
    · rw [if_neg hab] at h
      rw [if_neg hab]
      exact ih h

theorem ensure_node_edges (g : DiGraph) (n : String) :
    (ensure_node g n).edges = g.edges := by
  unfold ensure_node
  split <;> rfl

theorem lookupEdge_add_edge_pres {g : DiGraph} {a b : String}
    (u v : String) (w : ℚ) (h : (lookupEdge g.edges a b).isSome = true) :
    (lookupEdge (add_edge g u v w).edges a b).isSome = true := by
  unfold add_edge
  have he : (ensure_node (ensure_node g u) v).edges = g.edges := by
    rw [ensure_node_edges, ensure_node_edges]
  by_cases hp : (lookupEdge (ensure_node (ensure_node g u) v).edges u v).isSome
  · simp only [hp, if_true]
    rw [he]
    exact lookupEdge_updEdge_pres u v w h
  · simp only [hp, if_false]
    rw [he]
    exact lookupEdge_append_pres _ h

theorem lookupEdge_updEdge_self :
    ∀ (es : List (String × String × ℚ)) (u v : String) (w : ℚ),
      (lookupEdge es u v).isSome = true →
      (lookupEdge (updEdge es u v w) u v).isSome = true := by
  intro es
  induction es with
  | nil =>
    intro u v w h
    simp [lookupEdge] at h
  | cons ed rest ih =>
    intro u v w h
    obtain ⟨x, y, z⟩ := ed
    by_cases hxy : x = u ∧ y = v
    · unfold updEdge
      rw [if_pos hxy]
      unfold lookupEdge
      rw [if_pos hxy]
      rfl
    · unfold updEdge
      rw [if_neg hxy]
      unfold lookupEdge at h ⊢
      rw [if_neg hxy] at h
      rw [if_neg hxy]
      exact ih u v w h

theorem lookupEdge_append_self :
    ∀ (es : List (String × String × ℚ)) (u v : String) (w : ℚ),
      (lookupEdge (es ++ [(u, v, w)]) u v).isSome = true := by
  intro es
  induction es with
  | nil =>
    intro u v w
    simp [lookupEdge]
  | cons ed rest ih =>
    intro u v w
    obtain ⟨x, y, z⟩ := ed
    rw [List.cons_append]
    unfold lookupEdge
    by_cases hxy : x = u ∧ y = v
    · rw [if_pos hxy]
      rfl
    · rw [if_neg hxy]
      exact ih u v w

theorem lookupEdge_add_edge_self (g : DiGraph) (u v : String) (w : ℚ) :
    (lookupEdge (add_edge g u v w).edges u v).isSome = true := by
  unfold add_edge
  have he : (ensure_node (ensure_node g u) v).edges = g.edges := by
    rw [ensure_node_edges, ensure_node_edges]
  by_cases hp : (lookupEdge (ensure_node (ensure_node g u) v).edges u v).isSome
  · simp only [hp, if_true]
    rw [he] at hp ⊢
    exact lookupEdge_updEdge_self g.edges u v w hp
  · simp only [hp, if_false]
    rw [he]
    exact lookupEdge_append_self g.edges u v w

theorem foldl_add_node_pres :
    ∀ (devices : List (String × ℚ)) (g : DiGraph) (d : String),
      d ∉ devices.map Prod.fst →
      getNode (devices.foldl (fun g p => add_node g p.1 p.2) g) d =
        getNode g d := by
  intro devices
  induction devices with
  | nil =>
    intro g d _
    rfl
  | cons p rest ih =>
    intro g d hd
    rw [List.map_cons] at hd
    rw [List.foldl_cons]
    rw [ih _ d (fun hm => hd (List.mem_cons_of_mem _ hm)), getNode_add_node]
    have hne : ¬(p.1 = d) := by
      intro he
      exact hd (he ▸ List.mem_cons_self _ _)
    rw [if_neg hne]

theorem foldl_add_node_mem :
    ∀ (devices : List (String × ℚ)) (g : DiGraph),
      (devices.map Prod.fst).Nodup →
      ∀ p ∈ devices,
        getNode (devices.foldl (fun g q => add_node g q.1 q.2) g) p.1 =
          some ⟨some p.2, false, none, none⟩ := by
  intro devices
  induction devices with
  | nil =>
    intro g _ p hp
    simp at hp
  | cons q rest ih =>
    intro g hnd p hp
    rw [List.map_cons, List.nodup_cons] at hnd
    rw [List.foldl_cons]
    rcases List.mem_cons.mp hp with hp | hp
    · subst hp
      rw [foldl_add_node_pres rest _ p.1 hnd.1, getNode_add_node, if_pos rfl]
    · exact ih _ hnd.2 p hp

theorem foldl_add_edge_node_pres :
    ∀ (deps : List Dependency) (g : DiGraph) (d : String),
      (getNode g d).isSome = true →
      getNode (deps.foldl
        (fun g dp => add_edge g dp.frm dp.tgt (dp.weight.getD 1)) g) d =
        getNode g d := by
  intro deps
  induction deps with
  | nil =>
    intro g d _
    rfl
  | cons dp rest ih =>
    intro g d h
    rw [List.foldl_cons]
    have h2 := getNode_add_edge_pres dp.frm dp.tgt
      (dp.weight.getD 1) h
    rw [ih _ d (by rw [h2]; exact h)]
    exact h2

theorem foldl_add_edge_edge_mono :
    ∀ (deps : List Dependency) (g : DiGraph) (a b : String),
      (lookupEdge g.edges a b).isSome = true →
      (lookupEdge (deps.foldl
        (fun g dp => add_edge g dp.frm dp.tgt (dp.weight.getD 1)) g).edges
        a b).isSome = true := by
  intro deps
  induction deps with
  | nil =>
    intro g a b h
    exact h
  | cons dp rest ih =>
    intro g a b h
    rw [List.foldl_cons]
    exact ih _ a b (lookupEdge_add_edge_pres dp.frm dp.tgt _ h)

theorem foldl_add_edge_deps :
    ∀ (deps : List Dependency) (g : DiGraph),
      ∀ dp ∈ deps,
        (getNode (deps.foldl
          (fun g dp => add_edge g dp.frm dp.tgt (dp.weight.getD 1)) g)
          dp.frm).isSome = true ∧
        (getNode (deps.foldl
          (fun g dp => add_edge g dp.frm dp.tgt (dp.weight.getD 1)) g)
          dp.tgt).isSome = true ∧
        (lookupEdge (deps.foldl
          (fun g dp => add_edge g dp.frm dp.tgt (dp.weight.getD 1)) g).edges
          dp.frm dp.tgt).isSome = true := by
  intro deps
  induction deps with
  | nil =>
    intro g dp hdp
    simp at hdp
  | cons dp0 rest ih =>
    intro g dp hdp
    rw [List.foldl_cons]
    rcases List.mem_cons.mp hdp with hdp | hdp
    · subst hdp
      obtain ⟨hu, hv⟩ := getNode_add_edge_endpoints g dp.frm dp.tgt
        (dp.weight.getD 1)
      refine ⟨?_, ?_, ?_⟩
      · rw [foldl_add_edge_node_pres rest _ _ hu]
        exact hu
      · rw [foldl_add_edge_node_pres rest _ _ hv]
        exact hv
      · exact foldl_add_edge_edge_mono rest _ _ _
          (lookupEdge_add_edge_self g dp.frm dp.tgt (dp.weight.getD 1))
    · exact ih _ dp hdp

/-- C3, amended: `_build_network_graph` performs NO validation and never
fails: construction is total for every configuration.  Every declared
device ends up as a node carrying its risk score unchanged — even a score
outside [0,1] — and every dependency ends up as an edge whose endpoints
both exist as nodes, an unknown endpoint having been silently auto-created
by `nx.add_edge` (without a risk score, so that the subsequent
device-state initialisation in the constructor fails with
`KeyError("risk_score")`, not `ConfigurationError`). -/
theorem C3_amended (cfg : NetworkConfig)
    (hnd : (cfg.devices.map Prod.fst).Nodup) :
    (∀ p ∈ cfg.devices,
      getNode (build_network_graph cfg) p.1 =
        some ⟨some p.2, false, none, none⟩) ∧
    (∀ dp ∈ cfg.dependencies,
      (getNode (build_network_graph cfg) dp.frm).isSome = true ∧
      (getNode (build_network_graph cfg) dp.tgt).isSome = true ∧
      (lookupEdge (build_network_graph cfg).edges dp.frm dp.tgt).isSome
        = true) := by
  constructor
  · intro p hp
    have h1 := foldl_add_node_mem cfg.devices ⟨[], []⟩ hnd p hp
    have h1s : (getNode (cfg.devices.foldl
        (fun g q => add_node g q.1 q.2) ⟨[], []⟩) p.1).isSome = true := by
      rw [h1]
      rfl
    show getNode (cfg.dependencies.foldl
      (fun g dp => add_edge g dp.frm dp.tgt (dp.weight.getD 1))
      (cfg.devices.foldl (fun g q => add_node g q.1 q.2) ⟨[], []⟩)) p.1 = _
    rw [foldl_add_edge_node_pres _ _ _ h1s]
    exact h1
  · intro dp hdp
    exact foldl_add_edge_deps cfg.dependencies _ dp hdp

/-- C3, witness: the amended statement applied to the dangling
configuration (device `A` keeps risk 0.5; the dependency's endpoints `A`
and the auto-created `Ghost` both exist as nodes with the edge
present). -/
theorem C3_amended_witness :
    (cfg_dangling.devices.map Prod.fst).Nodup ∧
    ((∀ p ∈ cfg_dangling.devices,
      getNode (build_network_graph cfg_dangling) p.1 =
        some ⟨some p.2, false, none, none⟩) ∧
    (∀ dp ∈ cfg_dangling.dependencies,
      (getNode (build_network_graph cfg_dangling) dp.frm).isSome = true ∧
      (getNode (build_network_graph cfg_dangling) dp.tgt).isSome = true ∧
      (lookupEdge (build_network_graph cfg_dangling).edges dp.frm
        dp.tgt).isSome = true)) :=
  ⟨by with_unfolding_all decide,
    C3_amended cfg_dangling (by with_unfolding_all decide)⟩

/-- C9, amended: on every non-empty network the analysis reports as most
vulnerable the device attaining the maximal risk score and as most central
the device attaining the maximal betweenness centrality, but ties are
broken by FIRST position in node-insertion order (Python's `max` keeps the
current candidate on ties), not by lexicographically smallest name. -/
theorem C9_amended (g : DiGraph) (h : g.nodes ≠ []) :
    (∃ p, most_vulnerable g = some p.1 ∧
      is_first_max (fun q => q.2.risk_score.getD 0) g.nodes p) ∧
    (∃ d, most_central g = some d ∧
      is_first_max (betweenness_centrality g) (nodeNames g) d) := by
  cases hn : g.nodes with
  | nil => exact absurd hn h
  | cons x xs =>
    constructor
    · obtain ⟨m, hm, hfm⟩ := pymax_by_first_max
        (fun q => q.2.risk_score.getD 0) x xs
      refine ⟨m, ?_, hn ▸ hfm⟩
      unfold most_vulnerable
      rw [hn, hm]
      rfl
    · have hnames : nodeNames g = x.1 :: xs.map Prod.fst := by
        rw [nodeNames, hn]
        rfl
      obtain ⟨d, hd, hfm⟩ := pymax_by_first_max
        (betweenness_centrality g) x.1 (xs.map Prod.fst)
      refine ⟨d, ?_, hnames ▸ hfm⟩
      unfold most_central
      rw [hnames, hd]

/-- C9, witness: the amended statement applied to the tie graph `g_tie`
(nodes inserted as `B`, then `A`, equal risks). -/
theorem C9_amended_witness :
    g_tie.nodes ≠ [] ∧
    ((∃ p, most_vulnerable g_tie = some p.1 ∧
      is_first_max (fun q => q.2.risk_score.getD 0) g_tie.nodes p) ∧
    (∃ d, most_central g_tie = some d ∧
      is_first_max (betweenness_centrality g_tie) (nodeNames g_tie) d)) :=
  ⟨by with_unfolding_all decide, C9_amended g_tie (by with_unfolding_all decide)⟩

theorem h_init_states_facts :
    ∀ (nodes : List (String × NodeData)) (s : Store),
      s.next ≤ (h_init_states nodes s).2.next ∧
      (∀ c, c < s.next → (h_init_states nodes s).2.cells c = s.cells c) ∧
      (∀ res, (h_init_states nodes s).1 = .ok res →
        ∀ p ∈ res, s.next ≤ p.2 ∧ p.2 < (h_init_states nodes s).2.next) := by
  intro nodes
  induction nodes with
  | nil =>
    intro s
    refine ⟨le_refl _, fun c _ => rfl, ?_⟩
    intro res hres p hp
    simp only [h_init_states, Except.ok.injEq] at hres
    rw [← hres] at hp
    simp at hp
  | cons q rest ih =>
    intro s
    obtain ⟨name, nd⟩ := q
    cases hr : nd.risk_score with
    | none =>
      refine ⟨?_, ?_, ?_⟩
      · simp only [h_init_states, hr]
        exact le_refl _
      · intro c hc
        simp only [h_init_states, hr]
      · intro res hres
        simp only [h_init_states, hr] at hres
        exact Except.noConfusion hres
    | some r =>
      obtain ⟨ihnext, ihcells, ihok⟩ :=
        ih ⟨fun i => if i = s.next then ⟨false, 0, none, none, 1 - r⟩
          else s.cells i, s.next + 1⟩
      rcases hpair : h_init_states rest
        ⟨fun i => if i = s.next then ⟨false, 0, none, none, 1 - r⟩
          else s.cells i, s.next + 1⟩ with ⟨res2, s2⟩
      simp only [hpair] at ihnext ihcells ihok
      cases res2 with
      | error er =>
        refine ⟨?_, ?_, ?_⟩
        · simp only [h_init_states, hr, store_alloc, hpair]
          omega
        · intro c hc
          simp only [h_init_states, hr, store_alloc, hpair]
          rw [ihcells c (by omega)]
          simp
          omega
        · intro res hres
          simp only [h_init_states, hr, store_alloc, hpair] at hres
          exact Except.noConfusion hres
      | ok cells2 =>
        refine ⟨?_, ?_, ?_⟩
        · simp only [h_init_states, hr, store_alloc, hpair]
          omega
        · intro c hc
          simp only [h_init_states, hr, store_alloc, hpair]
          rw [ihcells c (by omega)]
          simp
          omega
        · intro res hres
          simp only [h_init_states, hr, store_alloc, hpair,
            Except.ok.injEq] at hres
          rw [← hres]
          intro p hp
          simp only [h_init_states, hr, store_alloc, hpair]
          rcases List.mem_cons.mp hp with hp | hp
          · rw [hp]
            simp
            omega
          · have := ihok cells2 rfl p hp
            omega

theorem h_reset_frame (w : World) :
    w.store.next ≤ (h_reset w).world.store.next ∧
    (∀ c, c < w.store.next →
      (h_reset w).world.store.cells c = w.store.cells c) ∧
    (∀ w1 u, h_reset w = .ok w1 u →
      w1.store = (h_init_states w.eng.graph.nodes w.store).2 ∧
      ∀ p ∈ w1.eng.device_cells,
        w.store.next ≤ p.2 ∧ p.2 < w1.store.next) := by
  obtain ⟨hnext, hcells, hok⟩ := h_init_states_facts w.eng.graph.nodes w.store
  rcases hpair : h_init_states w.eng.graph.nodes w.store with ⟨res, s2⟩
  simp only [hpair] at hnext hcells hok
  cases res with
  | error er =>
    refine ⟨?_, ?_, ?_⟩
    · simp only [h_reset, hpair, HRes.world]
      exact hnext
    · intro c hc
      simp only [h_reset, hpair, HRes.world]
      exact hcells c hc
    · intro w1 u h
      simp only [h_reset, hpair] at h
      exact HRes.noConfusion h
  | ok cells =>
    refine ⟨?_, ?_, ?_⟩
    · simp only [h_reset, hpair, HRes.world]
      exact hnext
    · intro c hc
      simp only [h_reset, hpair, HRes.world]
      exact hcells c hc
    · intro w1 u h
      simp only [h_reset, hpair, HRes.ok.injEq] at h
      rw [← h.1]
      exact ⟨rfl, fun p hp => hok cells rfl p hp⟩

theorem h_compromise_frame (w : World) (d : String) (t : ℚ) (av : String) :
    (h_compromise w d t av).world.eng.device_cells = w.eng.device_cells ∧
    (h_compromise w d t av).world.store.next = w.store.next ∧
    (∀ N, (∀ p ∈ w.eng.device_cells, N ≤ p.2) →
      ∀ c, c < N →
        (h_compromise w d t av).world.store.cells c = w.store.cells c) := by
  cases hl : lookupA w.eng.device_cells d with
  | none =>
    refine ⟨?_, ?_, ?_⟩
    · simp [h_compromise, hl, HRes.world]
    · simp [h_compromise, hl, HRes.world]
    · intro N hN c hc
      simp [h_compromise, hl, HRes.world]
  | some cell =>
    have hcell_mem : (d, cell) ∈ w.eng.device_cells := lookupA_some_mem hl
    have hwrite : ∀ (v : DeviceState) N,
        (∀ p ∈ w.eng.device_cells, N ≤ p.2) → ∀ c, c < N →
        (store_write w.store cell v).cells c = w.store.cells c := by
      intro v N hN c hc
      have hge := hN (d, cell) hcell_mem
      have hne : c ≠ cell := by omega
      simp only [store_write, hne, if_false]
    cases hn : getNode w.eng.graph d with
    | none =>
      refine ⟨?_, ?_, ?_⟩
      · simp [h_compromise, hl, hn, HRes.world]
      · simp [h_compromise, hl, hn, HRes.world, store_write]
      · intro N hN c hc
        simp only [h_compromise, hl, hn, HRes.world]
        exact hwrite _ N hN c hc
    | some nd =>
      cases hr : nd.risk_score with
      | none =>
        refine ⟨?_, ?_, ?_⟩
        · simp [h_compromise, hl, hn, hr, HRes.world]
        · simp [h_compromise, hl, hn, hr, HRes.world, store_write]
        · intro N hN c hc
          simp only [h_compromise, hl, hn, hr, HRes.world]
          exact hwrite _ N hN c hc
      | some r =>
        refine ⟨?_, ?_, ?_⟩
        · simp [h_compromise, hl, hn, hr, HRes.world]
        · simp [h_compromise, hl, hn, hr, HRes.world, store_write]
        · intro N hN c hc
          simp only [h_compromise, hl, hn, hr, HRes.world]
          exact hwrite _ N hN c hc

theorem h_attempt_frame (rng : ℕ → ℚ) (cd : String) (ct : ℚ) :
    ∀ (nbs : List String) (w : World) (queue : List (String × ℚ))
      (steps : List PropStep) (rix : ℕ),
      (h_attempt_neighbors rng cd ct w nbs queue steps
        rix).world.eng.device_cells = w.eng.device_cells ∧
      (h_attempt_neighbors rng cd ct w nbs queue steps
        rix).world.store.next = w.store.next ∧
      (∀ N, (∀ p ∈ w.eng.device_cells, N ≤ p.2) → ∀ c, c < N →
        (h_attempt_neighbors rng cd ct w nbs queue steps
          rix).world.store.cells c = w.store.cells c) := by
  intro nbs
  induction nbs with
  | nil =>
    intro w queue steps rix
    exact ⟨rfl, rfl, fun N _ c _ => rfl⟩
  | cons nb rest ih =>
    intro w queue steps rix
    cases hl : lookupA w.eng.device_cells nb with
    | none =>
      have happ : h_attempt_neighbors rng cd ct w (nb :: rest) queue steps
          rix = .err w (.keyError nb) := by
        simp only [h_attempt_neighbors, hl]
      rw [happ]
      exact ⟨rfl, rfl, fun N _ c _ => rfl⟩
    | some cell =>
      by_cases hcomp : (w.store.cells cell).compromised = true
      · have happ : h_attempt_neighbors rng cd ct w (nb :: rest) queue steps
            rix = h_attempt_neighbors rng cd ct w rest queue steps rix := by
          simp only [h_attempt_neighbors, hl]
          rw [if_pos hcomp]
        rw [happ]
        exact ih w queue steps rix
      · cases hp : h_attack_probability w cd nb ct with
        | error er =>
          have happ : h_attempt_neighbors rng cd ct w (nb :: rest) queue
              steps rix = .err w er := by
            simp only [h_attempt_neighbors, hl]
            rw [if_neg hcomp]
            simp only [hp]
          rw [happ]
          exact ⟨rfl, rfl, fun N _ c _ => rfl⟩
        | ok p =>
          by_cases hdraw : rng rix < p
          · cases hw : lookupEdge w.eng.graph.edges cd nb with
            | none =>
              have happ : h_attempt_neighbors rng cd ct w (nb :: rest) queue
                  steps rix = .err w (.keyError nb) := by
                simp only [h_attempt_neighbors, hl]
                rw [if_neg hcomp]
                simp only [hp]
                rw [if_pos hdraw, hw]
              rw [happ]
              exact ⟨rfl, rfl, fun N _ c _ => rfl⟩
            | some ew =>
              cases hd : h_propagation_delay w cd nb ew (rng (rix + 1)) with
              | error er =>
                have happ : h_attempt_neighbors rng cd ct w (nb :: rest)
                    queue steps rix = .err w er := by
                  simp only [h_attempt_neighbors, hl]
                  rw [if_neg hcomp]
                  simp only [hp]
                  rw [if_pos hdraw, hw]
                  simp only [hd]
                rw [happ]
                exact ⟨rfl, rfl, fun N _ c _ => rfl⟩
              | ok dl =>
                obtain ⟨hdc_c, hnx_c, hcl_c⟩ := h_compromise_frame w nb
                  (ct + dl) ("Lateral movement from " ++ cd)
                cases hcmp : h_compromise w nb (ct + dl)
                    ("Lateral movement from " ++ cd) with
                | err w2 er =>
                  have happ : h_attempt_neighbors rng cd ct w (nb :: rest)
                      queue steps rix = .err w2 er := by
                    simp only [h_attempt_neighbors, hl]
                    rw [if_neg hcomp]
                    simp only [hp]
                    rw [if_pos hdraw, hw]
                    simp only [hd, hcmp]
                  rw [happ]
                  rw [hcmp] at hdc_c hnx_c hcl_c
                  simp only [HRes.world] at hdc_c hnx_c hcl_c
                  exact ⟨hdc_c, hnx_c, hcl_c⟩
                | ok w2 u =>
                  have happ : h_attempt_neighbors rng cd ct w (nb :: rest)
                      queue steps rix =
                      h_attempt_neighbors rng cd ct w2 rest
                        (queue ++ [(nb, ct + dl)])
                        (steps ++ [⟨cd, nb, ct + dl, p, "Lateral Movement"⟩])
                        (rix + 2) := by
                    simp only [h_attempt_neighbors, hl]
                    rw [if_neg hcomp]
                    simp only [hp]
                    rw [if_pos hdraw, hw]
                    simp only [hd, hcmp]
                  rw [happ]
                  rw [hcmp] at hdc_c hnx_c hcl_c
                  simp only [HRes.world] at hdc_c hnx_c hcl_c
                  obtain ⟨ihdc, ihnx, ihcl⟩ := ih w2
                    (queue ++ [(nb, ct + dl)])
                    (steps ++ [⟨cd, nb, ct + dl, p, "Lateral Movement"⟩])
                    (rix + 2)
                  refine ⟨ihdc.trans hdc_c, ihnx.trans hnx_c, ?_⟩
                  intro N hN c hc
                  rw [ihcl N (by rw [hdc_c]; exact hN) c hc]
                  exact hcl_c N hN c hc
          · have happ : h_attempt_neighbors rng cd ct w (nb :: rest) queue
                steps rix =
                h_attempt_neighbors rng cd ct w rest queue steps (rix + 1) := by
              simp only [h_attempt_neighbors, hl]
              rw [if_neg hcomp]
              simp only [hp]
              rw [if_neg hdraw]
            rw [happ]
            exact ih w queue steps (rix + 1)

theorem h_loop_frame (rng : ℕ → ℚ) :
    ∀ (fuel : ℕ) (w : World) (queue : List (String × ℚ))
      (steps : List PropStep) (rix : ℕ),
      (h_propagation_loop rng fuel w queue steps
        rix).world.eng.device_cells = w.eng.device_cells ∧
      (h_propagation_loop rng fuel w queue steps rix).world.store.next =
        w.store.next ∧
      (∀ N, (∀ p ∈ w.eng.device_cells, N ≤ p.2) → ∀ c, c < N →
        (h_propagation_loop rng fuel w queue steps rix).world.store.cells c
          = w.store.cells c) := by
  intro fuel
  induction fuel with
  | zero =>
    intro w queue steps rix
    cases queue with
    | nil => exact ⟨rfl, rfl, fun N _ c _ => rfl⟩
    | cons q rest =>
      obtain ⟨cd, ct⟩ := q
      exact ⟨rfl, rfl, fun N _ c _ => rfl⟩
  | succ fuel ih =>
    intro w queue steps rix
    cases queue with
    | nil => exact ⟨rfl, rfl, fun N _ c _ => rfl⟩
    | cons q rest =>
      obtain ⟨cd, ct⟩ := q
      obtain ⟨hadc, hanx, hacl⟩ := h_attempt_frame rng cd ct
        (successors w.eng.graph cd) w rest steps rix
      cases han : h_attempt_neighbors rng cd ct w
          (successors w.eng.graph cd) rest steps rix with
      | err w2 er =>
        have happ : h_propagation_loop rng (fuel + 1) w
            ((cd, ct) :: rest) steps rix = .err w2 er := by
          simp only [h_propagation_loop, han]
        rw [happ]
        rw [han] at hadc hanx hacl
        simp only [HRes.world] at hadc hanx hacl
        exact ⟨hadc, hanx, hacl⟩
      | ok w2 out =>
        obtain ⟨q2, steps2, rix2⟩ := out
        have happ : h_propagation_loop rng (fuel + 1) w
            ((cd, ct) :: rest) steps rix =
            h_propagation_loop rng fuel w2 q2 steps2 rix2 := by
          simp only [h_propagation_loop, han]
        rw [happ]
        rw [han] at hadc hanx hacl
        simp only [HRes.world] at hadc hanx hacl
        obtain ⟨ihdc, ihnx, ihcl⟩ := ih w2 q2 steps2 rix2
        refine ⟨ihdc.trans hadc, ihnx.trans hanx, ?_⟩
        intro N hN c hc
        rw [ihcl N (by rw [hadc]; exact hN) c hc]
        exact hacl N hN c hc

theorem h_entries_frame :
    ∀ (ds : List String) (w : World),
      (h_compromise_entries w ds).world.eng.device_cells =
        w.eng.device_cells ∧
      (h_compromise_entries w ds).world.store.next = w.store.next ∧
      (∀ N, (∀ p ∈ w.eng.device_cells, N ≤ p.2) → ∀ c, c < N →
        (h_compromise_entries w ds).world.store.cells c =
          w.store.cells c) := by
  intro ds
  induction ds with
  | nil =>
    intro w
    exact ⟨rfl, rfl, fun N _ c _ => rfl⟩
  | cons d rest ih =>
    intro w
    obtain ⟨hdc_c, hnx_c, hcl_c⟩ := h_compromise_frame w d 0 "Initial Attack"
    cases hcmp : h_compromise w d 0 "Initial Attack" with
    | err w2 er =>
      have happ : h_compromise_entries w (d :: rest) = .err w2 er := by
        simp only [h_compromise_entries, hcmp]
      rw [happ]
      rw [hcmp] at hdc_c hnx_c hcl_c
      simp only [HRes.world] at hdc_c hnx_c hcl_c
      exact ⟨hdc_c, hnx_c, hcl_c⟩
    | ok w2 u =>
      have happ : h_compromise_entries w (d :: rest) =
          h_compromise_entries w2 rest := by
        simp only [h_compromise_entries, hcmp]
      rw [happ]
      rw [hcmp] at hdc_c hnx_c hcl_c
      simp only [HRes.world] at hdc_c hnx_c hcl_c
      obtain ⟨ihdc, ihnx, ihcl⟩ := ih w2
      refine ⟨ihdc.trans hdc_c, ihnx.trans hnx_c, ?_⟩
      intro N hN c hc
      rw [ihcl N (by rw [hdc_c]; exact hN) c hc]
      exact hcl_c N hN c hc

theorem h_simulate_frame (w : World) (sc : Scenario) (rng : ℕ → ℚ)
    (now : ℚ) (N : ℕ) (hN : N ≤ w.store.next) :
    N ≤ (h_simulate w sc rng now).world.store.next ∧
    (∀ c, c < N → (h_simulate w sc rng now).world.store.cells c =
      w.store.cells c) := by
  obtain ⟨hr_nx, hr_cl, hr_ok⟩ := h_reset_frame w
  cases hres : h_reset w with
  | err w1 er =>
    have happ : h_simulate w sc rng now = .err w1 er := by
      simp only [h_simulate, hres]
    rw [happ]
    rw [hres] at hr_nx hr_cl
    simp only [HRes.world] at hr_nx hr_cl ⊢
    exact ⟨le_trans hN hr_nx, fun c hc => hr_cl c (lt_of_lt_of_le hc hN)⟩
  | ok w1 u =>
    obtain ⟨_, hcells1⟩ := hr_ok w1 u hres
    rw [hres] at hr_nx hr_cl
    simp only [HRes.world] at hr_nx hr_cl
    obtain ⟨hedc, henx, hecl⟩ := h_entries_frame sc.attack_entry w1
    have hNdc1 : ∀ p ∈ w1.eng.device_cells, N ≤ p.2 := fun p hp =>
      le_trans hN (hcells1 p hp).1
    cases hent : h_compromise_entries w1 sc.attack_entry with
    | err w2 er =>
      have happ : h_simulate w sc rng now = .err w2 er := by
        simp only [h_simulate, hres, hent]
      rw [happ]
      rw [hent] at henx hecl
      simp only [HRes.world] at henx hecl ⊢
      refine ⟨?_, ?_⟩
      · rw [henx]; exact le_trans hN hr_nx
      · intro c hc
        rw [hecl N hNdc1 c hc]
        exact hr_cl c (lt_of_lt_of_le hc hN)
    | ok w2 u2 =>
      rw [hent] at hedc henx hecl
      simp only [HRes.world] at hedc henx hecl
      obtain ⟨hldc, hlnx, hlcl⟩ := h_loop_frame rng
        (sc.attack_entry.length + w2.eng.device_cells.length) w2
        (sc.attack_entry.map (fun d => (d, (0 : ℚ)))) [] 0
      have hNdc2 : ∀ p ∈ w2.eng.device_cells, N ≤ p.2 := by
        rw [hedc]; exact hNdc1
      have hmain : N ≤ (h_propagation_loop rng
          (sc.attack_entry.length + w2.eng.device_cells.length) w2
          (sc.attack_entry.map (fun d => (d, (0 : ℚ))))
          [] 0).world.store.next ∧
          ∀ c, c < N → (h_propagation_loop rng
            (sc.attack_entry.length + w2.eng.device_cells.length) w2
            (sc.attack_entry.map (fun d => (d, (0 : ℚ))))
            [] 0).world.store.cells c = w.store.cells c := by
        refine ⟨?_, ?_⟩
        · rw [hlnx, henx]; exact le_trans hN hr_nx
        · intro c hc
          rw [hlcl N hNdc2 c hc, hecl N hNdc1 c hc]
          exact hr_cl c (lt_of_lt_of_le hc hN)
      have hworld : (h_simulate w sc rng now).world =
          (h_propagation_loop rng
            (sc.attack_entry.length + w2.eng.device_cells.length) w2
            (sc.attack_entry.map (fun d => (d, (0 : ℚ)))) [] 0).world := by
        simp only [h_simulate, hres, hent]
        cases hloop : h_propagation_loop rng
            (sc.attack_entry.length + w2.eng.device_cells.length) w2
            (sc.attack_entry.map (fun d => (d, (0 : ℚ)))) [] 0 with
        | err w3 er => simp only [HRes.world]
        | ok w3 o =>
          cases o with
          | none => simp only [HRes.world]
          | some st => simp only [HRes.world]
      rw [hworld]
      exact hmain

theorem h_apply_frame (w : World) (op : HOp) (N : ℕ)
    (hN : N ≤ w.store.next) :
    N ≤ (h_apply w op).store.next ∧
    (∀ c, c < N → (h_apply w op).store.cells c = w.store.cells c) := by
  cases op with
  | reset =>
    obtain ⟨hr_nx, hr_cl, _⟩ := h_reset_frame w
    exact ⟨le_trans hN hr_nx, fun c hc => hr_cl c (lt_of_lt_of_le hc hN)⟩
  | simulate sc rng now =>
    exact h_simulate_frame w sc rng now N hN

theorem h_apply_ops_frame (ops : List HOp) :
    ∀ (w : World) (N : ℕ), N ≤ w.store.next →
      N ≤ (h_apply_ops w ops).store.next ∧
      (∀ c, c < N →
        (h_apply_ops w ops).store.cells c = w.store.cells c) := by
  induction ops with
  | nil => exact fun w N hN => ⟨hN, fun c _ => rfl⟩
  | cons op rest ih =>
    intro w N hN
    obtain ⟨hanx, hacl⟩ := h_apply_frame w op N hN
    obtain ⟨ihnx, ihcl⟩ := ih (h_apply w op) N hanx
    exact ⟨ihnx, fun c hc => (ihcl c hc).trans (hacl c hc)⟩

theorem h_simulate_ok_snapshot (w : World) (sc : Scenario) (rng : ℕ → ℚ)
    (now : ℚ) (w3 : World) (r : HSimResult)
    (h : h_simulate w sc rng now = .ok w3 r) :
    r.device_states = w3.eng.device_cells ∧
    ∀ p ∈ r.device_states, p.2 < w3.store.next := by
  obtain ⟨hr_nx, hr_cl, hr_ok⟩ := h_reset_frame w
  cases hres : h_reset w with
  | err w1 er =>
    simp only [h_simulate, hres] at h
    exact HRes.noConfusion h
  | ok w1 u =>
    obtain ⟨_, hcells1⟩ := hr_ok w1 u hres
    obtain ⟨hedc, henx, _⟩ := h_entries_frame sc.attack_entry w1
    cases hent : h_compromise_entries w1 sc.attack_entry with
    | err w2 er =>
      simp only [h_simulate, hres, hent] at h
      exact HRes.noConfusion h
    | ok w2 u2 =>
      rw [hent] at hedc henx
      simp only [HRes.world] at hedc henx
      obtain ⟨hldc, hlnx, _⟩ := h_loop_frame rng
        (sc.attack_entry.length + w2.eng.device_cells.length) w2
        (sc.attack_entry.map (fun d => (d, (0 : ℚ)))) [] 0
      cases hloop : h_propagation_loop rng
          (sc.attack_entry.length + w2.eng.device_cells.length) w2
          (sc.attack_entry.map (fun d => (d, (0 : ℚ)))) [] 0 with
      | err w3x er =>
        simp only [h_simulate, hres, hent, hloop] at h
        exact HRes.noConfusion h
      | ok w3x o =>
        rw [hloop] at hldc hlnx
        simp only [HRes.world] at hldc hlnx
        cases o with
        | none =>
          simp only [h_simulate, hres, hent, hloop] at h
          exact HRes.noConfusion h
        | some steps =>
          simp only [h_simulate, hres, hent, hloop] at h
          injection h with h1 h2
          subst h1
          subst h2
          refine ⟨rfl, ?_⟩
          intro p hp
          have hpd : p ∈ w1.eng.device_cells := by
            have : p ∈ w2.eng.device_cells := by
              rw [← hldc]
              simpa [h_calculate_results] using hp
            rw [← hedc]; exact this
          rw [hlnx, henx]
          exact (hcells1 p hpd).2

theorem read_snapshot_congr (s s2 : Store) (snap : List (String × ℕ))
    (h : ∀ p ∈ snap, s.cells p.2 = s2.cells p.2) :
    read_snapshot s snap = read_snapshot s2 snap := by
  unfold read_snapshot
  induction snap with
  | nil => rfl
  | cons p rest ih =>
    have hp := h p (List.mem_cons_self p rest)
    have hrest := ih (fun q hq => h q (List.mem_cons_of_mem p hq))
    simp only [List.map_cons, hp]
    rw [hrest]

/-- C10: the device-state snapshot carried in a returned result is
unchanged by any later sequence of reset / simulate calls on the same
engine: dereferencing its addresses in the later heap gives the same
device states as at capture time. A fresh run supersedes but does not
alter a previously returned result, because `_reset_simulation` rebinds
`self.device_states` to freshly allocated per-device dicts, and every
subsequent mutation goes through the rebound dict. -/
theorem C10_snapshot_immutable (w : World) (sc : Scenario) (rng : ℕ → ℚ)
    (now : ℚ) (ops : List HOp)
    (h : (h_simulate w sc rng now).isOk = true) :
    read_snapshot
      (h_apply_ops (h_simulate w sc rng now).world ops).store
      (((h_simulate w sc rng now).resultD default_hresult).device_states) =
    read_snapshot (h_simulate w sc rng now).world.store
      (((h_simulate w sc rng now).resultD default_hresult).device_states) := by
  cases hres : h_simulate w sc rng now with
  | err w3 er =>
    rw [hres] at h
    simp only [HRes.isOk] at h
    exact Bool.noConfusion h
  | ok w3 r =>
    simp only [HRes.world, HRes.resultD]
    obtain ⟨_, haddr⟩ := h_simulate_ok_snapshot w sc rng now w3 r hres
    obtain ⟨_, hcl⟩ := h_apply_ops_frame ops w3 w3.store.next le_rfl
    apply read_snapshot_congr
    intro p hp
    exact hcl p.2 (haddr p hp)

/-- C10, witness: the statement applied to a completed run on the §8
two-device world with entry `[A]`, all draws 0, followed by a reset. -/
theorem C10_snapshot_immutable_witness :
    (h_simulate w_ab sc_a (fun _ => 0) 0).isOk = true ∧
    read_snapshot
      (h_apply_ops (h_simulate w_ab sc_a (fun _ => 0) 0).world
        [HOp.reset]).store
      (((h_simulate w_ab sc_a (fun _ => 0) 0).resultD
        default_hresult).device_states) =
    read_snapshot (h_simulate w_ab sc_a (fun _ => 0) 0).world.store
      (((h_simulate w_ab sc_a (fun _ => 0) 0).resultD
        default_hresult).device_states) :=
  ⟨by with_unfolding_all decide,
   C10_snapshot_immutable w_ab sc_a (fun _ => 0) 0 [HOp.reset]
     (by with_unfolding_all decide)⟩
